import Mathlib

/-!
# Shallow embedding of the novel-project store (crates/novel_chapter)

This file embeds the in-memory data model and the mutation/versioning
operations of `NovelProject` (src/crates/novel_chapter/src/novel_chapter.rs)
as executable Lean definitions, and proves or refutes the frozen claims
about them.

Modelling conventions, chosen to mirror the Rust source:

* `ChapterId(u64)` and `VolumeId(Uuid)` are modelled as `Nat`.  Volume ids
  are opaque and randomly generated in the source (`Uuid::new_v4`); where an
  operation generates a fresh volume id the model takes it as a parameter.
* `HashMap<ChapterId, Chapter>` is modelled as an association list
  `List (Nat × Chapter)` with unique keys; `lookupc`, `insertc`, `eraseKey`
  and `modifyc` mirror `get`, `insert`, `remove` and `get_mut`.
  `HashMap::len` corresponds to the list length (equal on unique-key lists).
* The only on-disk state the claims depend on is each chapter's
  `history/` directory.  It is modelled as `histories : Nat → List
  ChapterVersion`, keyed by chapter id (chapter directories are
  `chapter-<id>`, so the id determines the directory).  A snapshot file
  `v<n>.json` is the list entry whose `version` field is `n`; writing a file
  replaces an entry with the same version, `remove_dir_all` empties the
  list.  A missing `history/` directory and an empty one are collapsed:
  the source treats them identically in every operation modelled here
  (empty history list, no version file found).
* `SystemTime` fields, `root_path`/`dir_path` and the inert `NovelSettings`
  are dropped: no claim mentions them (`dir_path` is determined by the id).
* `current_version` is a `u32` in the source; it is modelled as `Nat` with
  an explicit `% 2 ^ 32` where the source increments it.
* Filesystem errors are not modelled (every `std::fs` call is assumed to
  succeed); `anyhow` failure sites (`.context(...)?` on lookups and
  `bail!`) are modelled by `StoreError`, one constructor per bail site.
  Operations on `&mut self` are modelled as `NovelProject → Except
  StoreError α × NovelProject`, threading the state so that mutations
  performed before a bail would be visible.
* `load`'s per-chapter reconstruction (`load_chapter_directory`,
  `get_latest_version`) is modelled over the observed directory contents:
  the history directory is an `Option (List String)` of file names
  (`none` = directory missing).  `get_latest_version` parses names of the
  form `v<digits>.json` exactly as the source does (`u32` parse over the
  name's characters; the model reads decimal digits, omitting the corner
  case that Rust's `u32` parser also accepts a leading `+`, which no
  claim exercises).
-/

/-- Chapter status (`ChapterStatus`). -/
inductive ChapterStatus where
  | NotStarted
  | InProgress
  | Draft
  | Review
  | Complete
deriving DecidableEq, Repr

/-- A version snapshot (`ChapterVersion`), minus its `SystemTime` field. -/
structure ChapterVersion where
  version : Nat
  content : String
  word_count : Nat
  summary : String
deriving DecidableEq, Repr

/-- A chapter (`Chapter`), minus `dir_path` and the `SystemTime` fields. -/
structure Chapter where
  id : Nat
  title : String
  order : Nat
  volume_id : Nat
  content : String
  word_count : Nat
  status : ChapterStatus
  current_version : Nat
deriving DecidableEq, Repr

/-- A volume (`Volume`), minus the `SystemTime` fields. -/
structure Volume where
  id : Nat
  title : String
  order : Nat
  chapter_ids : List Nat
  description : String
deriving DecidableEq, Repr

/-- The project (`NovelProject`) plus the modelled on-disk history state. -/
structure NovelProject where
  title : String
  volumes : List Volume
  chapters : List (Nat × Chapter)
  histories : Nat → List ChapterVersion

/-- One constructor per `anyhow` failure site used by the modelled
operations. -/
inductive StoreError where
  | chapterNotFound (id : Nat)
  | volumeNotFound
  | versionNotFound (version : Nat)
  | chapterNotInVolume (id : Nat) (volume : Nat)
deriving DecidableEq, Repr

/-- `u32::MAX + 1`, the modulus for the `current_version` counter. -/
def u32Size : Nat := 4294967296

/-- `content.split_whitespace().count()`. -/
def wordCount (s : String) : Nat :=
  ((s.split Char.isWhitespace).filter (fun t => t ≠ "")).length

/-- `HashMap::get` on the association-list model. -/
def lookupc : List (Nat × Chapter) → Nat → Option Chapter
  | [], _ => none
  | (k, c) :: rest, id => if k = id then some c else lookupc rest id

/-- `HashMap::remove` (the remaining map). -/
def eraseKey : List (Nat × Chapter) → Nat → List (Nat × Chapter)
  | [], _ => []
  | q :: rest, id =>
    if q.1 = id then eraseKey rest id else q :: eraseKey rest id

/-- `HashMap::insert` (replaces any entry with the same key). -/
def insertc (m : List (Nat × Chapter)) (id : Nat) (c : Chapter) :
    List (Nat × Chapter) :=
  (id, c) :: eraseKey m id

/-- Apply `f` to the first element satisfying `pred` (a `iter_mut().find`
followed by a mutation, or a loop that breaks after its first hit). -/
def updateFirst {α : Type} (pred : α → Bool) (f : α → α) : List α → List α
  | [] => []
  | x :: xs => if pred x then f x :: xs else x :: updateFirst pred f xs

/-- `HashMap::get_mut` followed by a field update. -/
def modifyc (m : List (Nat × Chapter)) (id : Nat) (f : Chapter → Chapter) :
    List (Nat × Chapter) :=
  updateFirst (fun q => q.1 == id) (fun q => (q.1, f q.2)) m

/-- Point update of the per-chapter history state. -/
def setHist (h : Nat → List ChapterVersion) (id : Nat)
    (l : List ChapterVersion) : Nat → List ChapterVersion :=
  fun k => if k = id then l else h k

/-- Writing `history/v<n>.json`: replaces any snapshot with the same
version number (same file name), keeps the rest. -/
def writeVersionFile (h : List ChapterVersion) (v : ChapterVersion) :
    List ChapterVersion :=
  v :: h.filter (fun w => w.version ≠ v.version)

/-- Total list indexing with a default (used to state claims). -/
def nthD {α : Type} (d : α) : List α → Nat → α
  | [], _ => d
  | x :: _, 0 => x
  | _ :: xs, n + 1 => nthD d xs n

/-- `Vec::insert` at `min` position (callers clamp the index first);
inserting past the end appends. -/
def insertAt (a : Nat) : Nat → List Nat → List Nat
  | 0, l => a :: l
  | _ + 1, [] => [a]
  | n + 1, x :: xs => x :: insertAt a n xs

/-- `Vec::remove` at the position of the first occurrence (the
`position` / `remove` pattern used on `chapter_ids`). -/
def eraseFirstNat (a : Nat) : List Nat → List Nat
  | [] => []
  | x :: xs => if x = a then xs else x :: eraseFirstNat a xs

/-- `NovelProject::new`: fresh project with one default volume ("第一卷").
The default volume's random uuid is taken as a parameter. -/
def NovelProject.new (default_volume_id : Nat) (title : String) :
    NovelProject :=
  { title := title
    volumes := [{ id := default_volume_id, title := "第一卷", order := 0,
                  chapter_ids := [], description := "" }]
    chapters := []
    histories := fun _ => [] }

/-- `NovelProject::create_volume`: the fresh uuid is a parameter. -/
def NovelProject.create_volume (p : NovelProject) (new_id : Nat)
    (title : String) : Except StoreError Nat × NovelProject :=
  let volume : Volume := { id := new_id, title := title,
                           order := p.volumes.length, chapter_ids := [],
                           description := "" }
  (Except.ok new_id, { p with volumes := p.volumes ++ [volume] })

/-- `NovelProject::rename_volume`: no-op when the id is not found. -/
def NovelProject.rename_volume (p : NovelProject) (id : Nat)
    (new_title : String) : Except StoreError Unit × NovelProject :=
  let volumes1 := updateFirst (fun v => v.id == id)
    (fun v => { v with title := new_title }) p.volumes
  (Except.ok (), { p with volumes := volumes1 })

/-- The chapter-deletion loop of `delete_volume`: `chapters.remove` for
each listed id, deleting the chapter's directory (its history) when the
id was present in the map. -/
def dropChapters (chapters : List (Nat × Chapter))
    (histories : Nat → List ChapterVersion) :
    List Nat → List (Nat × Chapter) × (Nat → List ChapterVersion)
  | [] => (chapters, histories)
  | cid :: rest =>
    match lookupc chapters cid with
    | some _ =>
      dropChapters (eraseKey chapters cid) (setHist histories cid []) rest
    | none => dropChapters chapters histories rest

/-- Removing the first volume with the given id (`Vec::remove` at
`position(|v| v.id == id)`). -/
def eraseFirstVolume (id : Nat) : List Volume → List Volume
  | [] => []
  | v :: vs => if v.id = id then vs else v :: eraseFirstVolume id vs

/-- The renumbering loop of `delete_volume`: `volume.order = new_order`
for each remaining volume, by position. -/
def renumberVolumes (i : Nat) : List Volume → List Volume
  | [] => []
  | v :: vs => { v with order := i } :: renumberVolumes (i + 1) vs

/-- `NovelProject::delete_volume`. -/
def NovelProject.delete_volume (p : NovelProject) (id : Nat) :
    Except StoreError Unit × NovelProject :=
  match p.volumes.find? (fun v => v.id == id) with
  | none => (Except.ok (), p)
  | some volume =>
    let dropped := dropChapters p.chapters p.histories volume.chapter_ids
    let volumes1 := renumberVolumes 0 (eraseFirstVolume id p.volumes)
    (Except.ok (), { title := p.title, volumes := volumes1,
                     chapters := dropped.1, histories := dropped.2 })

/-- `NovelProject::create_chapter`.  When no volume id is given the first
volume is used; the source falls back to a random uuid when there is no
first volume, and the subsequent `find` then fails with "Volume not
found", which the model reproduces directly. -/
def resolveVolumeId (p : NovelProject) (volume_id : Option Nat) :
    Option Nat :=
  match volume_id with
  | some v => some v
  | none => p.volumes.head?.map (fun v => v.id)

def NovelProject.create_chapter (p : NovelProject) (title : String)
    (volume_id : Option Nat) : Except StoreError Nat × NovelProject :=
  match resolveVolumeId p volume_id with
  | none => (Except.error StoreError.volumeNotFound, p)
  | some vid =>
    match p.volumes.find? (fun v => v.id == vid) with
    | none => (Except.error StoreError.volumeNotFound, p)
    | some volume =>
      let order := volume.chapter_ids.length
      let id := p.chapters.length
      let chapter : Chapter :=
        { id := id, title := title, order := order, volume_id := vid,
          content := "", word_count := 0,
          status := ChapterStatus.NotStarted, current_version := 0 }
      let volumes1 := updateFirst (fun v => v.id == vid)
        (fun v => { v with chapter_ids := v.chapter_ids ++ [id] }) p.volumes
      (Except.ok id, { p with chapters := insertc p.chapters id chapter,
                              volumes := volumes1 })

/-- The renumbering loop shared by `delete_chapter` and
`reorder_chapters_in_volume`: `ch.order = new_order` for each listed id
found in the map, by position. -/
def renumberFrom (i : Nat) (m : List (Nat × Chapter)) :
    List Nat → List (Nat × Chapter)
  | [] => m
  | cid :: rest =>
    renumberFrom (i + 1) (modifyc m cid (fun c => { c with order := i })) rest

/-- The volume loop of `delete_chapter`: find the first volume containing
the id, remove the id from its `chapter_ids`, renumber that volume's
remaining chapters in the map, and break. -/
def removeAndRenumber (id : Nat) (chapters : List (Nat × Chapter)) :
    List Volume → List Volume × List (Nat × Chapter)
  | [] => ([], chapters)
  | v :: vs =>
    if id ∈ v.chapter_ids then
      let newIds := eraseFirstNat id v.chapter_ids
      ({ v with chapter_ids := newIds } :: vs, renumberFrom 0 chapters newIds)
    else
      let rest := removeAndRenumber id chapters vs
      (v :: rest.1, rest.2)

/-- `NovelProject::delete_chapter`: no-op when the id is not found;
otherwise removes the map entry, fixes the owning volume, and deletes the
chapter's directory (including its history). -/
def NovelProject.delete_chapter (p : NovelProject) (id : Nat) :
    Except StoreError Unit × NovelProject :=
  match lookupc p.chapters id with
  | none => (Except.ok (), p)
  | some _ =>
    let step := removeAndRenumber id (eraseKey p.chapters id) p.volumes
    (Except.ok (), { p with volumes := step.1, chapters := step.2,
                            histories := setHist p.histories id [] })

/-- `NovelProject::rename_chapter`: no-op when the id is not found. -/
def NovelProject.rename_chapter (p : NovelProject) (id : Nat)
    (new_title : String) : Except StoreError Unit × NovelProject :=
  match lookupc p.chapters id with
  | none => (Except.ok (), p)
  | some _ =>
    let chapters1 := modifyc p.chapters id (fun c => { c with title := new_title })
    (Except.ok (), { p with chapters := chapters1 })

/-- `NovelProject::update_chapter_content`: no-op on a missing id;
snapshots the current content (tagged with the current version) when it
is non-empty and differs from the new content, then updates content,
word count and the version counter. -/
def NovelProject.update_chapter_content (p : NovelProject) (id : Nat)
    (new_content : String) (change_summary : Option String) :
    Except StoreError Unit × NovelProject :=
  match lookupc p.chapters id with
  | none => (Except.ok (), p)
  | some ch =>
    let snapshot : ChapterVersion :=
      { version := ch.current_version, content := ch.content,
        word_count := ch.word_count,
        summary := change_summary.getD "自动保存" }
    let histories1 :=
      if ch.content ≠ "" ∧ ch.content ≠ new_content then
        setHist p.histories id (writeVersionFile (p.histories id) snapshot)
      else p.histories
    let chapters1 := modifyc p.chapters id (fun c =>
      { c with content := new_content,
               word_count := wordCount new_content,
               current_version := (c.current_version + 1) % u32Size })
    (Except.ok (), { p with histories := histories1, chapters := chapters1 })

/-- `NovelProject::update_chapter_status`: no-op on a missing id. -/
def NovelProject.update_chapter_status (p : NovelProject) (id : Nat)
    (status : ChapterStatus) : Except StoreError Unit × NovelProject :=
  match lookupc p.chapters id with
  | none => (Except.ok (), p)
  | some _ =>
    let chapters1 := modifyc p.chapters id (fun c => { c with status := status })
    (Except.ok (), { p with chapters := chapters1 })

/-- Insertion step of the descending sort used by `get_version_history`
(`sort_by_key(Reverse(version))`). -/
def insertDesc (v : ChapterVersion) : List ChapterVersion → List ChapterVersion
  | [] => [v]
  | w :: rest =>
    if w.version ≤ v.version then v :: w :: rest else w :: insertDesc v rest

/-- Sort snapshots by version number, descending. -/
def sortByVersionDesc (l : List ChapterVersion) : List ChapterVersion :=
  l.foldr insertDesc []

/-- `NovelProject::get_version_history`: hard error on a missing chapter,
otherwise the stored snapshots sorted by version descending (empty when
no history directory exists). -/
def NovelProject.get_version_history (p : NovelProject) (id : Nat) :
    Except StoreError (List ChapterVersion) :=
  match lookupc p.chapters id with
  | none => Except.error (StoreError.chapterNotFound id)
  | some _ => Except.ok (sortByVersionDesc (p.histories id))

/-- `NovelProject::restore_version`: hard errors on a missing chapter or
a missing `v<version>.json`; otherwise feeds the snapshot's content
through `update_chapter_content` with a generated summary. -/
def NovelProject.restore_version (p : NovelProject) (id : Nat)
    (version : Nat) : Except StoreError Unit × NovelProject :=
  match lookupc p.chapters id with
  | none => (Except.error (StoreError.chapterNotFound id), p)
  | some _ =>
    match (p.histories id).find? (fun w => w.version == version) with
    | none => (Except.error (StoreError.versionNotFound version), p)
    | some version_data =>
      let step := p.update_chapter_content id version_data.content
        (some ("恢复到版本 " ++ toString version))
      (Except.ok (), step.2)

/-- The validation loop of `reorder_chapters_in_volume`: every id must
exist and belong to the target volume; bails at the first offender. -/
def validateOrder (chapters : List (Nat × Chapter)) (volume_id : Nat) :
    List Nat → Except StoreError Unit
  | [] => Except.ok ()
  | id :: rest =>
    match lookupc chapters id with
    | none => Except.error (StoreError.chapterNotFound id)
    | some c =>
      if c.volume_id = volume_id then validateOrder chapters volume_id rest
      else Except.error (StoreError.chapterNotInVolume id volume_id)

/-- `NovelProject::reorder_chapters_in_volume`: no-op when the volume id
is not found; validates, then replaces `chapter_ids` wholesale and
recomputes each member's cached `order`. -/
def NovelProject.reorder_chapters_in_volume (p : NovelProject)
    (volume_id : Nat) (new_order : List Nat) :
    Except StoreError Unit × NovelProject :=
  match p.volumes.find? (fun v => v.id == volume_id) with
  | none => (Except.ok (), p)
  | some _ =>
    match validateOrder p.chapters volume_id new_order with
    | Except.error e => (Except.error e, p)
    | Except.ok () =>
      let volumes1 := updateFirst (fun v => v.id == volume_id)
        (fun v => { v with chapter_ids := new_order }) p.volumes
      let chapters1 := renumberFrom 0 p.chapters new_order
      (Except.ok (), { p with volumes := volumes1, chapters := chapters1 })

/-- The source-volume loop of `move_chapter_to_volume`: the first volume
whose id matches the chapter's `volume_id` *and* whose `chapter_ids`
contains the chapter has the id removed (the `break` sits inside the
`if let Some(pos)`). -/
def removeFromSource (src cid : Nat) : List Volume → List Volume
  | [] => []
  | v :: vs =>
    if v.id = src ∧ cid ∈ v.chapter_ids then
      { v with chapter_ids := eraseFirstNat cid v.chapter_ids } :: vs
    else v :: removeFromSource src cid vs

/-- `NovelProject::move_chapter_to_volume`: hard error on a missing
chapter; removes the id from its source volume, inserts it into the
first volume with the target id at `min(target_position, len)`, and
updates the chapter's `volume_id` — a missing target volume is *not* an
error.  No `order` field of either volume's chapters is renumbered. -/
def NovelProject.move_chapter_to_volume (p : NovelProject)
    (chapter_id target_volume_id target_position : Nat) :
    Except StoreError Unit × NovelProject :=
  match lookupc p.chapters chapter_id with
  | none => (Except.error (StoreError.chapterNotFound chapter_id), p)
  | some ch =>
    let volumes1 := removeFromSource ch.volume_id chapter_id p.volumes
    let ins : Volume → Volume := fun v =>
      let l := v.chapter_ids
      { v with chapter_ids := insertAt chapter_id (min target_position l.length) l }
    let volumes2 := updateFirst (fun v => v.id == target_volume_id) ins volumes1
    let chapters1 := modifyc p.chapters chapter_id
      (fun c => { c with volume_id := target_volume_id })
    (Except.ok (), { p with volumes := volumes2, chapters := chapters1 })

/-- A decimal digit of a file name. -/
def digitVal (c : Char) : Option Nat :=
  if c.isDigit then some (c.toNat - 48) else none

/-- `str::parse::<u32>` on the version substring, restricted to plain
decimal digits: `none` on the empty string, a non-digit, or overflow
past `u32::MAX` — exactly the inputs Rust's parse rejects (Rust also
accepts one leading `+`, a corner no claim exercises). -/
def parseDigits (cs : List Char) : Option Nat :=
  if cs = [] then none else
    match cs.foldl (fun acc c =>
      match acc, digitVal c with
      | some n, some d => some (n * 10 + d)
      | _, _ => none) (some 0) with
    | some n => if n < u32Size then some n else none
    | none => none

/-- `ends_with(".json")` plus removal of the suffix. -/
def stripSuffixJson (cs : List Char) : Option (List Char) :=
  match cs.reverse with
  | 'n' :: 'o' :: 's' :: 'j' :: '.' :: rest => some rest.reverse
  | _ => none

/-- The file-name parse inside `get_latest_version`: names of the form
`v<u32>.json` yield their version number (`starts_with("v")`,
`ends_with(".json")`, `name[1..len-5].parse::<u32>()`), over the
character list of the name. -/
def parseVersionFilename (name : String) : Option Nat :=
  match name.data with
  | 'v' :: rest =>
    match stripSuffixJson rest with
    | some mid => parseDigits mid
    | none => none
  | _ => none

/-- `NovelProject::get_latest_version`: fold of `max` (starting from 0)
over the parsed `v<N>.json` names of the history directory; 0 when the
directory does not exist. -/
def getLatestVersion (historyDir : Option (List String)) : Nat :=
  match historyDir with
  | none => 0
  | some names =>
    names.foldl
      (fun mx n => match parseVersionFilename n with
        | some v => max mx v
        | none => mx) 0

/-- The observed contents of one `chapters/<dir>` directory, as read by
`load_chapter_directory`: the parsed `metadata.json` (absent file ⇒
`none`; the claims do not exercise parse failures), the `content.md`
text if the file exists, and the history directory's file names
(`none` = no `history/` directory). -/
structure ChapterDirOnDisk where
  metadata : Option Chapter
  contentFile : Option String
  historyFiles : Option (List String)

/-- `NovelProject::load_chapter_directory`: skip when `metadata.json` is
missing; overlay content (recomputing the word count) when `content.md`
exists; set `current_version` from `get_latest_version`. -/
def loadChapterDirectory (d : ChapterDirOnDisk) : Option Chapter :=
  match d.metadata with
  | none => none
  | some ch0 =>
    let ch1 := match d.contentFile with
      | some s => { ch0 with content := s, word_count := wordCount s }
      | none => ch0
    some { ch1 with current_version := getLatestVersion d.historyFiles }

/-- Invariant I2 of the spec: for every volume, the chapter found at
index `i` of its `chapter_ids` has cached `order` equal to `i`
(vacuous at ids that are missing from the index). -/
def I2 (p : NovelProject) : Prop :=
  ∀ v ∈ p.volumes, ∀ i < v.chapter_ids.length,
    ((lookupc p.chapters (nthD 0 v.chapter_ids i)).map Chapter.order).getD i = i

/-- Structural well-formedness of a project state, as maintained by the
store and assumed by the spec: unique map keys, unique volume ids,
duplicate-free volume orderings, invariant I1 (a chapter id appears in
at most one volume's `chapter_ids`), and each listed chapter's
`volume_id` naming its volume. -/
def WF (p : NovelProject) : Prop :=
  (p.chapters.map Prod.fst).Nodup ∧
  (p.volumes.map Volume.id).Nodup ∧
  (∀ v ∈ p.volumes, v.chapter_ids.Nodup) ∧
  p.volumes.Pairwise (fun v w => ∀ cid ∈ v.chapter_ids, cid ∉ w.chapter_ids) ∧
  (∀ v ∈ p.volumes, ∀ cid ∈ v.chapter_ids,
    ((lookupc p.chapters cid).map Chapter.volume_id).getD v.id = v.id)

/-- One mutation request, with any id the source would draw from a
random-number generator (`VolumeId::default`) passed explicitly. -/
inductive MutOp where
  | createChapterOp (title : String) (volume_id : Option Nat)
  | deleteChapterOp (id : Nat)
  | renameChapterOp (id : Nat) (title : String)
  | updateStatusOp (id : Nat) (status : ChapterStatus)
  | updateContentOp (id : Nat) (content : String) (summary : Option String)
  | restoreOp (id : Nat) (version : Nat)
  | reorderOp (volume_id : Nat) (order : List Nat)
  | moveOp (chapter_id : Nat) (target : Nat) (pos : Nat)
  | createVolumeOp (new_id : Nat) (title : String)
  | deleteVolumeOp (id : Nat)
  | renameVolumeOp (id : Nat) (title : String)

/-- The state after dispatching one mutation (failed operations leave the
state as the model returns it). -/
def applyOp (p : NovelProject) : MutOp → NovelProject
  | MutOp.createChapterOp t v => (p.create_chapter t v).2
  | MutOp.deleteChapterOp id => (p.delete_chapter id).2
  | MutOp.renameChapterOp id t => (p.rename_chapter id t).2
  | MutOp.updateStatusOp id st => (p.update_chapter_status id st).2
  | MutOp.updateContentOp id c s => (p.update_chapter_content id c s).2
  | MutOp.restoreOp id v => (p.restore_version id v).2
  | MutOp.reorderOp vid ord => (p.reorder_chapters_in_volume vid ord).2
  | MutOp.moveOp cid tgt pos => (p.move_chapter_to_volume cid tgt pos).2
  | MutOp.createVolumeOp nid t => (p.create_volume nid t).2
  | MutOp.deleteVolumeOp id => (p.delete_volume id).2
  | MutOp.renameVolumeOp id t => (p.rename_volume id t).2

/-- Side conditions under which a mutation preserves I2:
`moveChapterToVolume` is excluded (it does not renumber `order` caches),
a reordering must be duplicate-free, and the id `createChapter` allocates
(the current chapter count) must be genuinely fresh — which deletions can
violate, see the Design Notes of the spec. -/
def SafeOp (p : NovelProject) : MutOp → Prop
  | MutOp.createChapterOp _ _ =>
      lookupc p.chapters p.chapters.length = none ∧
      ∀ v ∈ p.volumes, p.chapters.length ∉ v.chapter_ids
  | MutOp.reorderOp _ ord => ord.Nodup
  | MutOp.moveOp _ _ _ => False
  | _ => True

instance (p : NovelProject) : Decidable (I2 p) := by
  unfold I2; exact inferInstance

instance (p : NovelProject) : Decidable (WF p) := by
  unfold WF; exact inferInstance

instance (p : NovelProject) (op : MutOp) : Decidable (SafeOp p op) := by
  cases op <;> (unfold SafeOp; exact inferInstance)

/-! ## Lemmas about the association-list map -/

theorem lookupc_mem {m : List (Nat × Chapter)} {k : Nat} {c : Chapter}
    (h : lookupc m k = some c) : k ∈ m.map Prod.fst := by
  induction m with
  | nil => simp [lookupc] at h
  | cons q rest ih =>
    obtain ⟨k0, c0⟩ := q
    by_cases hk : k0 = k
    · subst hk; simp
    · simp only [lookupc, if_neg hk] at h
      simp [ih h]

theorem lookupc_eraseKey_self (m : List (Nat × Chapter)) (k : Nat) :
    lookupc (eraseKey m k) k = none := by
  induction m with
  | nil => simp [eraseKey, lookupc]
  | cons q rest ih =>
    obtain ⟨k0, c0⟩ := q
    by_cases hk : k0 = k
    · simpa [eraseKey, hk] using ih
    · simpa [eraseKey, lookupc, hk] using ih

theorem lookupc_eraseKey_ne (m : List (Nat × Chapter)) {k k' : Nat}
    (h : k' ≠ k) : lookupc (eraseKey m k) k' = lookupc m k' := by
  induction m with
  | nil => rfl
  | cons q rest ih =>
    obtain ⟨k0, c0⟩ := q
    by_cases hk : k0 = k
    · subst hk
      have hne : ¬(k0 = k') := fun e => h e.symm
      simp [eraseKey, lookupc, hne, ih]
    · by_cases hk' : k0 = k'
      · subst hk'; simp [eraseKey, lookupc, h]
      · simp [eraseKey, lookupc, hk, hk', ih]

theorem eraseKey_eq_self {m : List (Nat × Chapter)} {k : Nat}
    (h : k ∉ m.map Prod.fst) : eraseKey m k = m := by
  induction m with
  | nil => rfl
  | cons q rest ih =>
    obtain ⟨k0, c0⟩ := q
    simp only [List.map_cons, List.mem_cons, not_or] at h
    have hne : ¬(k0 = k) := fun e => h.1 e.symm
    simp [eraseKey, hne, ih h.2]

theorem lookupc_insertc_self (m : List (Nat × Chapter)) (k : Nat)
    (c : Chapter) : lookupc (insertc m k c) k = some c := by
  simp [insertc, lookupc]

theorem lookupc_insertc_ne (m : List (Nat × Chapter)) {k k' : Nat}
    (c : Chapter) (h : k' ≠ k) :
    lookupc (insertc m k c) k' = lookupc m k' := by
  have hne : ¬(k = k') := fun e => h e.symm
  simp [insertc, lookupc, hne, lookupc_eraseKey_ne m h]

theorem lookupc_modifyc_self (m : List (Nat × Chapter)) (k : Nat)
    (f : Chapter → Chapter) :
    lookupc (modifyc m k f) k = (lookupc m k).map f := by
  induction m with
  | nil => simp [modifyc, updateFirst, lookupc]
  | cons q rest ih =>
    obtain ⟨k0, c0⟩ := q
    by_cases hk : k0 = k
    · subst hk; simp [modifyc, updateFirst, lookupc]
    · simpa [modifyc, updateFirst, lookupc, hk] using ih

theorem lookupc_modifyc_ne (m : List (Nat × Chapter)) {k k' : Nat}
    (f : Chapter → Chapter) (h : k' ≠ k) :
    lookupc (modifyc m k f) k' = lookupc m k' := by
  induction m with
  | nil => simp [modifyc, updateFirst, lookupc]
  | cons q rest ih =>
    obtain ⟨k0, c0⟩ := q
    by_cases hk : k0 = k
    · subst hk
      have hne : ¬(k0 = k') := fun e => h e.symm
      simp [modifyc, updateFirst, lookupc, hne]
    · by_cases hk' : k0 = k'
      · subst hk'; simp [modifyc, updateFirst, lookupc, h]
      · simpa [modifyc, updateFirst, lookupc, hk, hk'] using ih

/-! ## Lemmas about `updateFirst`, `nthD`, `renumberFrom` and friends -/

theorem updateFirst_eq_self {α : Type} {pred : α → Bool} {f : α → α}
    {l : List α} (h : ∀ x ∈ l, pred x = false) : updateFirst pred f l = l := by
  induction l with
  | nil => rfl
  | cons x xs ih =>
    have hx : pred x = false := h x (by simp)
    simp [updateFirst, hx, ih (fun y hy => h y (by simp [hy]))]

theorem updateFirst_split {α : Type} {pred : α → Bool} (f : α → α)
    {l : List α} {x : α} (h : l.find? pred = some x) :
    ∃ l₁ l₂, l = l₁ ++ x :: l₂ ∧ (∀ y ∈ l₁, pred y = false) ∧
      pred x = true ∧ updateFirst pred f l = l₁ ++ f x :: l₂ := by
  induction l with
  | nil => simp [List.find?] at h
  | cons a xs ih =>
    by_cases ha : pred a = true
    · rw [List.find?_cons_of_pos _ ha] at h
      cases h
      exact ⟨[], xs, by simp, by simp, ha, by simp [updateFirst, ha]⟩
    · have ha' : pred a = false := by simpa using ha
      rw [List.find?_cons_of_neg _ (by simp [ha'])] at h
      obtain ⟨l₁, l₂, hl, h₁, hx, hu⟩ := ih h
      exact ⟨a :: l₁, l₂, by simp [hl], by
        intro y hy
        rcases List.mem_cons.mp hy with rfl | hy'
        · exact ha'
        · exact h₁ y hy', hx, by simp [updateFirst, ha', hu]⟩

theorem nthD_mem {α : Type} (d : α) {l : List α} {i : Nat}
    (h : i < l.length) : nthD d l i ∈ l := by
  induction l generalizing i with
  | nil => simp at h
  | cons x xs ih =>
    cases i with
    | zero => simp [nthD]
    | succ n =>
      simp only [List.length_cons, Nat.succ_lt_succ_iff] at h
      simp [nthD, ih h]

theorem nthD_append_left {α : Type} (d : α) {l : List α} (l' : List α)
    {i : Nat} (h : i < l.length) : nthD d (l ++ l') i = nthD d l i := by
  induction l generalizing i with
  | nil => simp at h
  | cons x xs ih =>
    cases i with
    | zero => simp [nthD]
    | succ n =>
      simp only [List.length_cons, Nat.succ_lt_succ_iff] at h
      simp [nthD, ih h]

theorem nthD_append_length {α : Type} (d : α) (l : List α) (a : α)
    (l' : List α) : nthD d (l ++ a :: l') l.length = a := by
  induction l with
  | nil => simp [nthD]
  | cons x xs ih => simpa [nthD] using ih

theorem renumberFrom_lookup_notMem {ids : List Nat}
    (m : List (Nat × Chapter)) (s : Nat) {cid : Nat} (h : cid ∉ ids) :
    lookupc (renumberFrom s m ids) cid = lookupc m cid := by
  induction ids generalizing m s with
  | nil => rfl
  | cons a rest ih =>
    simp only [List.mem_cons, not_or] at h
    rw [renumberFrom, ih _ _ h.2, lookupc_modifyc_ne _ _ h.1]

theorem renumberFrom_lookup_nthD {ids : List Nat} (hnd : ids.Nodup)
    (m : List (Nat × Chapter)) (s : Nat) {i : Nat} (h : i < ids.length) :
    lookupc (renumberFrom s m ids) (nthD 0 ids i) =
      (lookupc m (nthD 0 ids i)).map (fun c => { c with order := s + i }) := by
  induction ids generalizing m s i with
  | nil => simp at h
  | cons a rest ih =>
    rcases List.nodup_cons.mp hnd with ⟨ha, hnd'⟩
    cases i with
    | zero =>
      rw [renumberFrom]
      show lookupc (renumberFrom (s + 1) (modifyc m a _) rest) a = _
      rw [renumberFrom_lookup_notMem _ _ ha, lookupc_modifyc_self]
      simp [nthD]
    | succ n =>
      simp only [List.length_cons, Nat.succ_lt_succ_iff] at h
      rw [renumberFrom]
      show lookupc (renumberFrom (s + 1) (modifyc m a _) rest) (nthD 0 rest n) = _
      rw [ih hnd' _ _ h]
      have hne : nthD 0 rest n ≠ a := by
        intro e
        exact ha (e ▸ nthD_mem 0 h)
      rw [lookupc_modifyc_ne _ _ hne]
      show _ = (lookupc m (nthD 0 rest n)).map (fun c => { c with order := s + (n + 1) })
      have : s + 1 + n = s + (n + 1) := by omega
      rw [this]

theorem eraseFirstNat_eq_self {a : Nat} {l : List Nat} (h : a ∉ l) :
    eraseFirstNat a l = l := by
  induction l with
  | nil => rfl
  | cons x xs ih =>
    simp only [List.mem_cons, not_or] at h
    have : ¬(x = a) := fun e => h.1 e.symm
    simp [eraseFirstNat, this, ih h.2]

theorem mem_eraseFirstNat {a x : Nat} {l : List Nat}
    (h : x ∈ eraseFirstNat a l) : x ∈ l := by
  induction l with
  | nil => simp [eraseFirstNat] at h
  | cons y ys ih =>
    by_cases hy : y = a
    · simp only [eraseFirstNat, if_pos hy] at h
      simp [h]
    · simp only [eraseFirstNat, if_neg hy] at h
      rcases List.mem_cons.mp h with rfl | h'
      · simp
      · simp [ih h']

theorem not_mem_eraseFirstNat_of_nodup {a : Nat} {l : List Nat}
    (hnd : l.Nodup) : a ∉ eraseFirstNat a l := by
  induction l with
  | nil => simp [eraseFirstNat]
  | cons x xs ih =>
    rcases List.nodup_cons.mp hnd with ⟨hx, hnd'⟩
    by_cases h : x = a
    · subst h
      simpa [eraseFirstNat] using hx
    · simp only [eraseFirstNat, if_neg h, List.mem_cons, not_or]
      exact ⟨fun e => h e.symm, ih hnd'⟩

theorem nodup_eraseFirstNat (a : Nat) {l : List Nat} (hnd : l.Nodup) :
    (eraseFirstNat a l).Nodup := by
  induction l with
  | nil => simp [eraseFirstNat]
  | cons x xs ih =>
    rcases List.nodup_cons.mp hnd with ⟨hx, hnd'⟩
    by_cases h : x = a
    · simpa [eraseFirstNat, h] using hnd'
    · simp only [eraseFirstNat, if_neg h, List.nodup_cons]
      exact ⟨fun hmem => hx (mem_eraseFirstNat hmem), ih hnd'⟩

theorem insertAt_of_ge (a : Nat) {n : Nat} {l : List Nat}
    (h : l.length ≤ n) : insertAt a n l = l ++ [a] := by
  induction l generalizing n with
  | nil =>
    cases n with
    | zero => rfl
    | succ m => rfl
  | cons x xs ih =>
    cases n with
    | zero => simp at h
    | succ m =>
      simp only [List.length_cons, Nat.succ_le_succ_iff] at h
      simp [insertAt, ih h]

/-! ## Lemmas about validation, the move loops and `delete_chapter` -/

theorem validateOrder_ok {chapters : List (Nat × Chapter)} {vid : Nat}
    {ids : List Nat} (h : validateOrder chapters vid ids = Except.ok ()) :
    ∀ id ∈ ids, ∃ c, lookupc chapters id = some c ∧ c.volume_id = vid := by
  induction ids with
  | nil => simp
  | cons a rest ih =>
    intro id hid
    rcases hl : lookupc chapters a with _ | c
    · simp only [validateOrder, hl] at h
      cases h
    · simp only [validateOrder, hl] at h
      by_cases hv : c.volume_id = vid
      · rw [if_pos hv] at h
        rcases List.mem_cons.mp hid with rfl | hid'
        · exact ⟨c, hl, hv⟩
        · exact ih h id hid'
      · rw [if_neg hv] at h
        cases h

theorem validateOrder_error {chapters : List (Nat × Chapter)} {vid : Nat}
    {ids : List Nat} {bad : Nat} (hmem : bad ∈ ids)
    (hbad : ((lookupc chapters bad).map Chapter.volume_id).getD (vid + 1) ≠ vid) :
    ∃ off ∈ ids,
      validateOrder chapters vid ids =
          Except.error (StoreError.chapterNotFound off) ∨
      validateOrder chapters vid ids =
          Except.error (StoreError.chapterNotInVolume off vid) := by
  induction ids with
  | nil => simp at hmem
  | cons a rest ih =>
    rcases hl : lookupc chapters a with _ | c
    · refine ⟨a, by simp, Or.inl ?_⟩
      simp only [validateOrder, hl]
    · by_cases hv : c.volume_id = vid
      · have hbad' : bad ∈ rest := by
          rcases List.mem_cons.mp hmem with rfl | h'
          · rw [hl] at hbad
            simp [hv] at hbad
          · exact h'
        obtain ⟨off, hoff, hcase⟩ := ih hbad'
        refine ⟨off, by simp [hoff], ?_⟩
        simp only [validateOrder, hl, if_pos hv]
        exact hcase
      · refine ⟨a, by simp, Or.inr ?_⟩
        simp only [validateOrder, hl, if_neg hv]

theorem removeFromSource_eq_self {src cid : Nat} {l : List Volume}
    (h : ∀ v ∈ l, ¬(v.id = src ∧ cid ∈ v.chapter_ids)) :
    removeFromSource src cid l = l := by
  induction l with
  | nil => rfl
  | cons v vs ih =>
    have hv := h v (by simp)
    simp only [removeFromSource, if_neg hv]
    rw [ih (fun w hw => h w (by simp [hw]))]

theorem removeFromSource_mem {src cid : Nat} {l : List Volume} {w : Volume}
    (h : w ∈ removeFromSource src cid l) :
    (w ∈ l) ∨ ∃ v ∈ l, v.id = src ∧ cid ∈ v.chapter_ids ∧
      w = { v with chapter_ids := eraseFirstNat cid v.chapter_ids } := by
  induction l with
  | nil => simp [removeFromSource] at h
  | cons v vs ih =>
    by_cases hv : v.id = src ∧ cid ∈ v.chapter_ids
    · simp only [removeFromSource, if_pos hv] at h
      rcases List.mem_cons.mp h with rfl | h'
      · exact Or.inr ⟨v, by simp, hv.1, hv.2, rfl⟩
      · exact Or.inl (by simp [h'])
    · simp only [removeFromSource, if_neg hv] at h
      rcases List.mem_cons.mp h with rfl | h'
      · exact Or.inl (by simp)
      · rcases ih h' with h'' | ⟨u, hu, h1, h2, h3⟩
        · exact Or.inl (by simp [h''])
        · exact Or.inr ⟨u, by simp [hu], h1, h2, h3⟩

theorem removeFromSource_find?_of_ne {src cid tgt : Nat} {l : List Volume}
    (h : src ≠ tgt) (hnd : (l.map Volume.id).Nodup) :
    (removeFromSource src cid l).find? (fun v => v.id == tgt) =
      l.find? (fun v => v.id == tgt) := by
  induction l with
  | nil => rfl
  | cons v vs ih =>
    simp only [List.map_cons, List.nodup_cons] at hnd
    by_cases hv : v.id = src ∧ cid ∈ v.chapter_ids
    · have hvt : ¬(v.id = tgt) := fun e => h (hv.1 ▸ e)
      simp only [removeFromSource, if_pos hv]
      rw [List.find?_cons_of_neg _ (by simpa using hvt),
        List.find?_cons_of_neg _ (by simpa using hvt)]
    · simp only [removeFromSource, if_neg hv]
      by_cases hvt : v.id = tgt
      · rw [List.find?_cons_of_pos _ (by simpa using hvt),
          List.find?_cons_of_pos _ (by simpa using hvt)]
      · rw [List.find?_cons_of_neg _ (by simpa using hvt),
          List.find?_cons_of_neg _ (by simpa using hvt)]
        exact ih hnd.2

theorem removeAndRenumber_eq_self {id : Nat} {m : List (Nat × Chapter)}
    {l : List Volume} (h : ∀ v ∈ l, id ∉ v.chapter_ids) :
    removeAndRenumber id m l = (l, m) := by
  induction l with
  | nil => rfl
  | cons v vs ih =>
    have hv := h v (by simp)
    simp only [removeAndRenumber, if_neg hv]
    rw [ih (fun w hw => h w (by simp [hw]))]

theorem removeAndRenumber_split {id : Nat} (m : List (Nat × Chapter))
    {l : List Volume} {x : Volume} {l₁ l₂ : List Volume}
    (hl : l = l₁ ++ x :: l₂) (h₁ : ∀ v ∈ l₁, id ∉ v.chapter_ids)
    (hx : id ∈ x.chapter_ids) :
    removeAndRenumber id m l =
      (l₁ ++ { x with chapter_ids := eraseFirstNat id x.chapter_ids } :: l₂,
       renumberFrom 0 m (eraseFirstNat id x.chapter_ids)) := by
  subst hl
  induction l₁ with
  | nil => simp [removeAndRenumber, hx]
  | cons v vs ih =>
    have hv := h₁ v (by simp)
    simp only [List.cons_append, removeAndRenumber, if_neg hv, List.append_eq]
    rw [ih (fun w hw => h₁ w (by simp [hw]))]

/-! ## Versioning helpers -/

/-- The snapshot `update_chapter_content` writes when the pre-update
content is `c` and the pre-update version is `i` (summary defaulted). -/
def snapFor (i : Nat) (c : String) : ChapterVersion :=
  { version := i, content := c, word_count := wordCount c, summary := "自动保存" }

/-- The expected history after the content sequence `cs`: snapshots of
`cs` entries `0..m-1`, tagged `1..m`, most recent first. -/
def snapsDesc (cs : List String) : Nat → List ChapterVersion
  | 0 => []
  | k + 1 => snapFor (k + 1) (nthD "" cs k) :: snapsDesc cs k

/-- Repeated `update_chapter_content` with the given contents. -/
def applyUpdates (p : NovelProject) (id : Nat) (cs : List String) :
    NovelProject :=
  cs.foldl (fun q c => (q.update_chapter_content id c none).2) p

theorem snapsDesc_version_bounds {cs : List String} :
    ∀ {m : Nat}, ∀ w ∈ snapsDesc cs m, 1 ≤ w.version ∧ w.version ≤ m := by
  intro m
  induction m with
  | zero => simp [snapsDesc]
  | succ k ih =>
    intro w hw
    rcases List.mem_cons.mp hw with rfl | hw'
    · simp [snapFor]
    · have := ih w hw'
      exact ⟨this.1, Nat.le_succ_of_le this.2⟩

theorem snapsDesc_length (cs : List String) (m : Nat) :
    (snapsDesc cs m).length = m := by
  induction m with
  | zero => rfl
  | succ k ih => simp [snapsDesc, ih]

theorem snapsDesc_congr {cs cs' : List String} : ∀ {m : Nat},
    (∀ j < m, nthD "" cs j = nthD "" cs' j) →
    snapsDesc cs m = snapsDesc cs' m := by
  intro m
  induction m with
  | zero => intro _; rfl
  | succ k ih =>
    intro h
    rw [snapsDesc, snapsDesc, h k (Nat.lt_succ_self k),
      ih (fun j hj => h j (Nat.lt_succ_of_lt hj))]

theorem mem_snapsDesc {cs : List String} {j : Nat} : ∀ {m : Nat},
    1 ≤ j → j ≤ m → snapFor j (nthD "" cs (j - 1)) ∈ snapsDesc cs m := by
  intro m
  induction m with
  | zero => intro h1 h2; omega
  | succ k ih =>
    intro h1 h2
    by_cases hj : j = k + 1
    · subst hj
      simp [snapsDesc]
    · have : j ≤ k := by omega
      simp [snapsDesc, ih h1 this]

theorem snapsDesc_chain (cs : List String) : ∀ (m : Nat),
    List.Chain' (fun a b => b.version ≤ a.version) (snapsDesc cs m) := by
  intro m
  induction m with
  | zero => simp [snapsDesc]
  | succ k ih =>
    rw [snapsDesc]
    refine List.chain'_cons'.mpr ⟨?_, ih⟩
    intro b hb
    cases k with
    | zero => simp [snapsDesc] at hb
    | succ j =>
      rw [snapsDesc] at hb
      simp only [List.head?_cons, Option.mem_def, Option.some.injEq] at hb
      subst hb
      simp [snapFor]

theorem snapsDesc_filter_ne {cs : List String} {m k : Nat} (hk : m < k) :
    (snapsDesc cs m).filter (fun w => w.version ≠ k) = snapsDesc cs m := by
  rw [List.filter_eq_self]
  intro w hw
  have := (snapsDesc_version_bounds w hw).2
  simp only [ne_eq, decide_eq_true_eq]
  omega

theorem sortByVersionDesc_eq_self {l : List ChapterVersion}
    (h : List.Chain' (fun a b => b.version ≤ a.version) l) :
    sortByVersionDesc l = l := by
  induction l with
  | nil => rfl
  | cons x xs ih =>
    obtain ⟨hhead, htail⟩ := List.chain'_cons'.mp h
    have hx : sortByVersionDesc (x :: xs) = insertDesc x (sortByVersionDesc xs) := rfl
    rw [hx, ih htail]
    cases xs with
    | nil => rfl
    | cons w rest =>
      have hw : w.version ≤ x.version := hhead w (by simp)
      simp [insertDesc, hw]

theorem getLast?_eq_nthD {l : List String} (h : l ≠ []) :
    l.getLast? = some (nthD "" l (l.length - 1)) := by
  induction l with
  | nil => exact absurd rfl h
  | cons x xs ih =>
    cases xs with
    | nil => rfl
    | cons y ys =>
      rw [List.getLast?_cons_cons, ih (by simp)]
      simp [nthD]

theorem applyUpdates_spec (id : Nat) :
    ∀ (cs : List String), cs ≠ [] → (∀ c ∈ cs, c ≠ "") →
    List.Chain' (fun a b => b ≠ a) cs → cs.length < u32Size →
    ∀ (p : NovelProject) (ch : Chapter),
      lookupc p.chapters id = some ch → ch.content = "" →
      ch.current_version = 0 → p.histories id = [] →
      lookupc (applyUpdates p id cs).chapters id =
        some { ch with
          content := nthD "" cs (cs.length - 1),
          word_count := wordCount (nthD "" cs (cs.length - 1)),
          current_version := cs.length } ∧
      (applyUpdates p id cs).histories id = snapsDesc cs (cs.length - 1) := by
  intro cs
  induction cs using List.reverseRecOn with
  | nil => intro h; exact absurd rfl h
  | append_singleton cs₀ c ih =>
    intro _ hnonempty hchain hlen p ch hlook hcontent hcv hhist
    cases cs₀ with
    | nil =>
      have happ : applyUpdates p id ([] ++ [c]) =
          (p.update_chapter_content id c none).2 := rfl
      rw [happ]
      simp only [NovelProject.update_chapter_content, hlook]
      have hcond : ¬(ch.content ≠ "" ∧ ch.content ≠ c) := fun hc => hc.1 hcontent
      rw [if_neg hcond]
      have h1 : (1 : Nat) % u32Size = 1 := Nat.mod_eq_of_lt (by norm_num [u32Size])
      constructor
      · rw [lookupc_modifyc_self, hlook]
        simp [hcv, h1, nthD, snapsDesc]
      · simp [hhist, snapsDesc]
    | cons d ds =>
      have hne₀ : (d :: ds) ≠ ([] : List String) := by simp
      obtain ⟨hchain₀, _, hrel⟩ := List.chain'_append.mp hchain
      have hnonempty₀ : ∀ x ∈ d :: ds, x ≠ "" :=
        fun x hx => hnonempty x (List.mem_append_left _ hx)
      have hlen₀ : (d :: ds).length < u32Size := by
        simp only [List.length_append, List.length_cons, List.length_nil] at hlen ⊢
        omega
      obtain ⟨hlook₁, hhist₁⟩ :=
        ih hne₀ hnonempty₀ hchain₀ hlen₀ p ch hlook hcontent hcv hhist
      set L := ds.length with hL
      have hmlen : (d :: ds).length = L + 1 := by simp [hL]
      set last := nthD "" (d :: ds) ((d :: ds).length - 1) with hlast
      have hlastL : last = nthD "" (d :: ds) L := by
        rw [hlast, hmlen]
        norm_num
      have hlast_mem : last ∈ d :: ds := by
        rw [hlastL]
        exact nthD_mem _ (by simp [hL])
      have hlast_ne : last ≠ "" := hnonempty₀ last hlast_mem
      have hlast_ne_c : last ≠ c := by
        have hgl : (d :: ds).getLast? = some last := by
          rw [hlast]
          exact getLast?_eq_nthD hne₀
        have := hrel last (by rw [hgl]; rfl) c (by rfl)
        exact fun e => this e.symm
      have happ : applyUpdates p id ((d :: ds) ++ [c]) =
          ((applyUpdates p id (d :: ds)).update_chapter_content id c none).2 := by
        rw [applyUpdates, List.foldl_append]
        rfl
      rw [happ]
      simp only [NovelProject.update_chapter_content, hlook₁]
      have hcond : (last ≠ "" ∧ last ≠ c) := ⟨hlast_ne, hlast_ne_c⟩
      rw [if_pos hcond]
      have hlencs : ((d :: ds) ++ [c]).length = L + 2 := by simp [hL]
      have hb : L + 2 < u32Size := by
        rw [hlencs] at hlen
        exact hlen
      constructor
      · rw [lookupc_modifyc_self, hlook₁]
        have hnth : nthD "" ((d :: ds) ++ [c]) (((d :: ds) ++ [c]).length - 1) = c := by
          rw [hlencs]
          show nthD "" ((d :: ds) ++ [c]) (L + 1) = c
          rw [← hmlen]
          exact nthD_append_length "" (d :: ds) c []
        rw [hnth, hlencs]
        have hmod2 : ((d :: ds).length + 1) % u32Size = L + 2 := by
          rw [hmlen]
          exact Nat.mod_eq_of_lt hb
        simp only [Option.map_some', Option.some.injEq]
        simp [hmod2, hmlen]
        exact Nat.mod_eq_of_lt hb
      · show setHist (applyUpdates p id (d :: ds)).histories id
            (writeVersionFile ((applyUpdates p id (d :: ds)).histories id) _) id =
          snapsDesc ((d :: ds) ++ [c]) (((d :: ds) ++ [c]).length - 1)
        rw [setHist]
        simp only [if_pos rfl]
        rw [hhist₁, hmlen, hlencs]
        show writeVersionFile (snapsDesc (d :: ds) ((L + 1) - 1))
            { version := L + 1, content := last,
              word_count := wordCount last, summary := "自动保存" } =
          snapsDesc ((d :: ds) ++ [c]) ((L + 2) - 1)
        have hred : ((L + 1) : Nat) - 1 = L := rfl
        have hred2 : ((L + 2) : Nat) - 1 = L + 1 := rfl
        rw [hred, hred2]
        simp only [writeVersionFile]
        rw [snapsDesc_filter_ne (Nat.lt_succ_self L)]
        rw [snapsDesc]
        congr 1
        · rw [snapFor, nthD_append_left "" [c] (by simp [hL]), ← hlastL]
        · refine (snapsDesc_congr (fun j hj => ?_)).symm
          rw [nthD_append_left "" [c] (by simp [hL]; omega)]

theorem lookupc_eq_none {m : List (Nat × Chapter)} {k : Nat}
    (h : lookupc m k = none) : k ∉ m.map Prod.fst := by
  induction m with
  | nil => simp
  | cons q rest ih =>
    obtain ⟨k0, c0⟩ := q
    by_cases hk : k0 = k
    · simp [lookupc, hk] at h
    · simp only [lookupc, if_neg hk] at h
      simp only [List.map_cons, List.mem_cons, not_or]
      exact ⟨fun e => hk e.symm, ih h⟩

/-- `IdsBelow p`: every key of the chapter index is below the chapter
count.  This holds along any operation history that never deletes a
chapter, and makes the `id = chapter count` allocation rule fresh. -/
def IdsBelow (p : NovelProject) : Prop :=
  ∀ q ∈ p.chapters, q.1 < p.chapters.length

instance (p : NovelProject) : Decidable (IdsBelow p) := by
  unfold IdsBelow; exact inferInstance

/-! ## Claim theorems -/

/-- The stored chapter metadata of the C1 failing input (its stale
`current_version` of 9 is overridden by `load_chapter_directory`). -/
def exC1meta : Chapter :=
  { id := 3, title := "第1章", order := 0, volume_id := 0,
    content := "", word_count := 0, status := ChapterStatus.Draft,
    current_version := 0 }

/-- C1 (code_bug evidence): `load_chapter_directory` sets
`current_version` to `get_latest_version`, i.e. to the *maximum* version
number among the `v<N>.json` history files — not to one plus that
maximum as the specification states.  On a chapter directory holding
`v1.json` and `v2.json` the loaded `current_version` is 2, where the
spec (and its invariant I4) require 3; with no history directory both
agree on 0. -/
theorem C1_load_version_counter_eval :
    (loadChapterDirectory
      { metadata := some { exC1meta with current_version := 9 }
        contentFile := some "hello world"
        historyFiles := some ["v1.json", "v2.json"] }).map
        Chapter.current_version =
      some (getLatestVersion (some ["v1.json", "v2.json"])) ∧
    getLatestVersion (some ["v1.json", "v2.json"]) = 2 ∧
    getLatestVersion none = 0 := by
  refine ⟨rfl, ?_, rfl⟩
  rfl

/-- C5: when the chapter exists but no snapshot file `v<v>.json` exists
in its history, `restore_version` fails with the version-not-found error
and returns the project state entirely unchanged. -/
theorem C5_restore_missing_version (p : NovelProject) (id v : Nat)
    (ch : Chapter) (hch : lookupc p.chapters id = some ch)
    (hv : ∀ w ∈ p.histories id, w.version ≠ v) :
    p.restore_version id v = (Except.error (StoreError.versionNotFound v), p) := by
  have hf : (p.histories id).find? (fun w => w.version == v) = none := by
    rw [List.find?_eq_none]
    intro w hw
    simpa using hv w hw
  simp only [NovelProject.restore_version, hch, hf]

def exC5ch : Chapter :=
  { id := 0, title := "第1章", order := 0, volume_id := 0,
    content := "正文", word_count := 1, status := ChapterStatus.InProgress,
    current_version := 1 }

def exC5p : NovelProject :=
  { title := "小说"
    chapters := [(0, exC5ch)]
    volumes := [{ id := 0, title := "第一卷", order := 0,
                  chapter_ids := [0], description := "" }]
    histories := fun _ => [] }

theorem C5_witness :
    lookupc exC5p.chapters 0 = some exC5ch ∧
    (∀ w ∈ exC5p.histories 0, w.version ≠ 5) ∧
    exC5p.restore_version 0 5 =
      (Except.error (StoreError.versionNotFound 5), exC5p) :=
  ⟨by decide, by decide, C5_restore_missing_version exC5p 0 5 exC5ch
    (by decide) (by decide)⟩

/-- C9 (counterexample): `rename_chapter` on an id that is absent from
the index returns success (a benign no-op) — it does not fail with
NotFound as the claim states. -/
theorem C9_counterexample :
    lookupc (NovelProject.new 0 "小说").chapters 0 = none ∧
    (NovelProject.new 0 "小说").rename_chapter 0 "新标题" =
      (Except.ok (), NovelProject.new 0 "小说") := by
  exact ⟨rfl, rfl⟩

/-- C9 (amended): `rename_chapter` with an unknown ChapterId succeeds as
a no-op, returning `Ok` and leaving the project unchanged (the benign
no-op policy the source applies to rename-style operations). -/
theorem C9_rename_missing_noop (p : NovelProject) (id : Nat) (t : String)
    (h : lookupc p.chapters id = none) :
    p.rename_chapter id t = (Except.ok (), p) := by
  simp only [NovelProject.rename_chapter, h]

theorem C9_witness :
    lookupc (NovelProject.new 3 "书").chapters 7 = none ∧
    (NovelProject.new 3 "书").rename_chapter 7 "x" =
      (Except.ok (), NovelProject.new 3 "书") :=
  ⟨by decide, C9_rename_missing_noop (NovelProject.new 3 "书") 7 "x" (by decide)⟩

/-- C3 (counterexample): ids are allocated from the live chapter count,
so deletion enables reuse.  Create two chapters (ids 0 and 1), delete
chapter 0, create again: the new chapter receives id 1, which was
already allocated to the second chapter — refuting "each createChapter
returns an id distinct from (and greater than) every id previously
allocated". -/
theorem C3_counterexample :
    (let p1 := ((NovelProject.new 0 "小说").create_chapter "第1章" none).2
     let p2 := (p1.create_chapter "第2章" none).2
     let p3 := (p2.delete_chapter 0).2
     (p1.create_chapter "第2章" none).1 = Except.ok 1 ∧
     (p3.create_chapter "第3章" none).1 = Except.ok 1) := by
  exact ⟨rfl, rfl⟩

/-- C3 (amended): `create_chapter` always returns the current chapter
count as the id.  As long as every existing key is below the chapter
count — which holds along delete-free histories — the allocated id is
fresh and strictly greater than every existing id, and the property is
preserved; after a deletion the rule can reuse an id (§9 of the spec). -/
theorem C3_allocation_amended (p : NovelProject) (title : String)
    (vid? : Option Nat) (hbelow : IdsBelow p) {id : Nat}
    (hok : (p.create_chapter title vid?).1 = Except.ok id) :
    id = p.chapters.length ∧ (∀ q ∈ p.chapters, q.1 < id) ∧
    lookupc p.chapters id = none ∧
    IdsBelow (p.create_chapter title vid?).2 := by
  have hnone : lookupc p.chapters p.chapters.length = none := by
    rcases hl : lookupc p.chapters p.chapters.length with _ | c
    · rfl
    · obtain ⟨⟨k, c'⟩, hq, hk⟩ := List.mem_map.mp (lookupc_mem hl)
      have := hbelow _ hq
      simp only [hk] at this
      omega
  have hnotmem : p.chapters.length ∉ p.chapters.map Prod.fst :=
    lookupc_eq_none hnone
  rcases hvid : resolveVolumeId p vid? with _ | vid
  · simp only [NovelProject.create_chapter, hvid] at hok
    cases hok
  · rcases hfind : p.volumes.find? (fun v => v.id == vid) with _ | volume
    · simp only [NovelProject.create_chapter, hvid, hfind] at hok
      cases hok
    · simp only [NovelProject.create_chapter, hvid, hfind] at hok
      have hid : id = p.chapters.length := by
        cases hok
        rfl
      subst hid
      refine ⟨rfl, ?_, hnone, ?_⟩
      · intro q hq
        exact hbelow q hq
      · simp only [NovelProject.create_chapter, hvid, hfind]
        intro q hq
        simp only [insertc, eraseKey_eq_self hnotmem] at hq ⊢
        rcases List.mem_cons.mp hq with rfl | hq'
        · simp
        · have := hbelow q hq'
          simp only [List.length_cons]
          omega

def exC3p : NovelProject :=
  { title := "小说"
    volumes := [{ id := 0, title := "第一卷", order := 0,
                  chapter_ids := [0, 1], description := "" }]
    chapters := [(0, exC5ch), (1, { exC5ch with id := 1, order := 1 })]
    histories := fun _ => [] }

theorem C3_witness :
    IdsBelow exC3p ∧
    (2 = exC3p.chapters.length ∧ (∀ q ∈ exC3p.chapters, q.1 < 2) ∧
      lookupc exC3p.chapters 2 = none ∧
      IdsBelow (exC3p.create_chapter "第3章" none).2) :=
  ⟨by decide, C3_allocation_amended exC3p "第3章" none (by decide) rfl⟩

/-- C6: if the target volume exists and the proposed ordering contains
an id that is absent from the index or cached as belonging to a
different volume, `reorder_chapters_in_volume` fails — naming an
offending id, with the not-found error for an absent id or the
wrong-volume error otherwise — and returns the state entirely unchanged
(so `chapter_ids` and every cached `order` are untouched).  The source
wraps both validation failures in the same untyped `anyhow` error; the
two bail sites are the spec's InvalidArgument-class validation
failures. -/
theorem C6_reorder_invalid (p : NovelProject) (vid : Nat)
    (hvol : ∃ tv ∈ p.volumes, tv.id = vid)
    (new_order : List Nat) (bad : Nat) (hmem : bad ∈ new_order)
    (hbad : ((lookupc p.chapters bad).map Chapter.volume_id).getD (vid + 1) ≠ vid) :
    ∃ off ∈ new_order,
      (p.reorder_chapters_in_volume vid new_order =
        (Except.error (StoreError.chapterNotFound off), p) ∨
       p.reorder_chapters_in_volume vid new_order =
        (Except.error (StoreError.chapterNotInVolume off vid), p)) := by
  have hsome : (p.volumes.find? (fun v => v.id == vid)).isSome := by
    rw [List.find?_isSome]
    obtain ⟨tv, htv, hid⟩ := hvol
    exact ⟨tv, htv, by simp [hid]⟩
  rcases hfind : p.volumes.find? (fun v => v.id == vid) with _ | x
  · rw [hfind] at hsome
    simp at hsome
  · obtain ⟨off, hoff, hcase⟩ := validateOrder_error hmem hbad
    refine ⟨off, hoff, ?_⟩
    rcases hcase with hc | hc
    · left
      simp only [NovelProject.reorder_chapters_in_volume, hfind, hc]
    · right
      simp only [NovelProject.reorder_chapters_in_volume, hfind, hc]

theorem C6_witness :
    (∃ tv ∈ exC3p.volumes, tv.id = 0) ∧ (7 : Nat) ∈ [0, 7] ∧
    ((lookupc exC3p.chapters 7).map Chapter.volume_id).getD 1 ≠ 0 ∧
    (∃ off ∈ [0, 7],
      (exC3p.reorder_chapters_in_volume 0 [0, 7] =
        (Except.error (StoreError.chapterNotFound off), exC3p) ∨
       exC3p.reorder_chapters_in_volume 0 [0, 7] =
        (Except.error (StoreError.chapterNotInVolume off 0), exC3p))) :=
  ⟨by decide, by decide, by decide,
    C6_reorder_invalid exC3p 0 (by decide) [0, 7] 7 (by decide) (by decide)⟩

/-- C7: a successful restore to an existing version `N`, when the
current content is non-empty and differs from the snapshot, writes a
*new* history entry capturing the pre-restore content (tagged with the
pre-restore `current_version` and the generated restore summary) and
increments `current_version` by one; in particular (as the pre-restore
counter is at least `N` in any state satisfying invariant I4) it never
resets `current_version` to `N`. -/
theorem C7_restore_bumps (p : NovelProject) (id N : Nat) (ch : Chapter)
    (vd : ChapterVersion) (hch : lookupc p.chapters id = some ch)
    (hfind : (p.histories id).find? (fun w => w.version == N) = some vd)
    (hne : ch.content ≠ "") (hdiff : ch.content ≠ vd.content)
    (hNle : N ≤ ch.current_version) (hlt : ch.current_version + 1 < u32Size) :
    (p.restore_version id N).1 = Except.ok () ∧
    lookupc (p.restore_version id N).2.chapters id =
      some { ch with
        content := vd.content,
        word_count := wordCount vd.content,
        current_version := ch.current_version + 1 } ∧
    (p.restore_version id N).2.histories id =
      { version := ch.current_version, content := ch.content,
        word_count := ch.word_count,
        summary := "恢复到版本 " ++ toString N } ::
        (p.histories id).filter (fun w => w.version ≠ ch.current_version) ∧
    ch.current_version + 1 ≠ N := by
  simp only [NovelProject.restore_version, hch, hfind,
    NovelProject.update_chapter_content]
  rw [if_pos ⟨hne, hdiff⟩]
  refine ⟨by trivial, ?_, ?_, by omega⟩
  · rw [lookupc_modifyc_self, hch]
    simp [Nat.mod_eq_of_lt hlt]
  · simp [setHist, writeVersionFile]

def exC7ch : Chapter :=
  { id := 0, title := "第1章", order := 0, volume_id := 0,
    content := "two", word_count := 1, status := ChapterStatus.InProgress,
    current_version := 2 }

def exC7p : NovelProject :=
  { title := "小说"
    chapters := [(0, exC7ch)]
    volumes := [{ id := 0, title := "第一卷", order := 0,
                  chapter_ids := [0], description := "" }]
    histories := fun _ =>
      [{ version := 1, content := "one", word_count := 1,
         summary := "自动保存" }] }

theorem C7_witness :
    lookupc exC7p.chapters 0 = some exC7ch ∧
    (exC7p.histories 0).find? (fun w => w.version == 1) =
      some { version := 1, content := "one", word_count := 1,
             summary := "自动保存" } ∧
    exC7ch.content ≠ "" ∧ exC7ch.content ≠ "one" ∧
    ((exC7p.restore_version 0 1).1 = Except.ok () ∧
      lookupc (exC7p.restore_version 0 1).2.chapters 0 =
        some { exC7ch with
          content := "one",
          word_count := wordCount "one",
          current_version := 3 } ∧
      (exC7p.restore_version 0 1).2.histories 0 =
        { version := 2, content := "two", word_count := 1,
          summary := "恢复到版本 " ++ toString 1 } ::
          (exC7p.histories 0).filter (fun w => w.version ≠ 2) ∧
      (3 : Nat) ≠ 1) :=
  ⟨by decide, by decide, by decide, by decide,
    C7_restore_bumps exC7p 0 1 exC7ch
      { version := 1, content := "one", word_count := 1, summary := "自动保存" }
      (by decide) (by decide) (by decide) (by decide) (by decide) (by decide)⟩

/-! ## Lemmas for the move operation -/

theorem find?_middle {α : Type} {pred : α → Bool} {l₁ l₂ : List α} {x : α}
    (h₁ : ∀ y ∈ l₁, pred y = false) (hx : pred x = true) :
    (l₁ ++ x :: l₂).find? pred = some x := by
  induction l₁ with
  | nil => simpa using List.find?_cons_of_pos _ hx
  | cons a xs ih =>
    rw [List.cons_append, List.find?_cons_of_neg _ (by simp [h₁ a (by simp)])]
    exact ih (fun y hy => h₁ y (by simp [hy]))

theorem find?_updateFirst {α : Type} {pred : α → Bool} {f : α → α}
    {l : List α} {x : α} (hf : l.find? pred = some x)
    (hpf : pred (f x) = true) :
    (updateFirst pred f l).find? pred = some (f x) := by
  obtain ⟨l₁, l₂, _, h₁, _, hu⟩ := updateFirst_split f hf
  rw [hu]
  exact find?_middle h₁ hpf

theorem removeFromSource_find?_self {src cid : Nat} {l : List Volume}
    {x : Volume} (hf : l.find? (fun v => v.id == src) = some x)
    (hnd : (l.map Volume.id).Nodup) :
    (removeFromSource src cid l).find? (fun v => v.id == src) =
      some { x with chapter_ids := eraseFirstNat cid x.chapter_ids } := by
  induction l with
  | nil => simp [List.find?] at hf
  | cons v vs ih =>
    simp only [List.map_cons, List.nodup_cons] at hnd
    by_cases hvp : v.id = src
    · rw [List.find?_cons_of_pos _ (by simpa using hvp)] at hf
      injection hf with hvx
      subst hvx
      by_cases hmem : cid ∈ v.chapter_ids
      · have hc : v.id = src ∧ cid ∈ v.chapter_ids := ⟨hvp, hmem⟩
        simp only [removeFromSource, if_pos hc]
        exact List.find?_cons_of_pos _ (by simpa using hvp)
      · have hc : ¬(v.id = src ∧ cid ∈ v.chapter_ids) := fun hc => hmem hc.2
        simp only [removeFromSource, if_neg hc]
        rw [List.find?_cons_of_pos _ (by simpa using hvp)]
        rw [eraseFirstNat_eq_self hmem]
    · rw [List.find?_cons_of_neg _ (by simpa using hvp)] at hf
      have : ¬(v.id = src ∧ cid ∈ v.chapter_ids) := fun hc => hvp hc.1
      simp only [removeFromSource, if_neg this]
      rw [List.find?_cons_of_neg _ (by simpa using hvp)]
      exact ih hf hnd.2

theorem length_eraseFirstNat_le (a : Nat) (l : List Nat) :
    (eraseFirstNat a l).length ≤ l.length := by
  induction l with
  | nil => simp [eraseFirstNat]
  | cons x xs ih =>
    by_cases h : x = a
    · simp [eraseFirstNat, h]
    · simp only [eraseFirstNat, if_neg h, List.length_cons]
      omega

/-- C8: moving an existing chapter into an existing target volume
always succeeds and inserts the chapter id into the target volume's
`chapter_ids` at index `min(target_position, length)` — the length of
the target's list at insertion time, i.e. after the id was removed from
it when the source and target coincide; a `target_position` beyond that
length appends at the end instead of failing. -/
theorem C8_move_clamps (p : NovelProject) (cid tgt pos : Nat)
    (ch : Chapter) (tv : Volume)
    (hch : lookupc p.chapters cid = some ch)
    (htv : p.volumes.find? (fun v => v.id == tgt) = some tv)
    (hnd : (p.volumes.map Volume.id).Nodup) :
    (let l' := if ch.volume_id = tgt then eraseFirstNat cid tv.chapter_ids
               else tv.chapter_ids
     (p.move_chapter_to_volume cid tgt pos).1 = Except.ok () ∧
     (p.move_chapter_to_volume cid tgt pos).2.volumes.find?
         (fun v => v.id == tgt) =
       some { tv with chapter_ids := insertAt cid (min pos l'.length) l' } ∧
     (tv.chapter_ids.length ≤ pos →
       (p.move_chapter_to_volume cid tgt pos).2.volumes.find?
           (fun v => v.id == tgt) =
         some { tv with chapter_ids := l' ++ [cid] })) := by
  intro l'
  have htv_id : tv.id = tgt := by
    have := List.find?_some htv
    simpa using this
  have hfind1 : (removeFromSource ch.volume_id cid p.volumes).find?
      (fun v => v.id == tgt) = some { tv with chapter_ids := l' } := by
    by_cases hsrc : ch.volume_id = tgt
    · have h2 : (removeFromSource tgt cid p.volumes).find?
          (fun v => v.id == tgt) =
          some { tv with chapter_ids := eraseFirstNat cid tv.chapter_ids } :=
        removeFromSource_find?_self htv hnd
      rw [hsrc]
      simp only [l', if_pos hsrc]
      exact h2
    · rw [removeFromSource_find?_of_ne hsrc hnd, htv]
      simp only [l', if_neg hsrc]
  have hins : (p.move_chapter_to_volume cid tgt pos).2.volumes.find?
      (fun v => v.id == tgt) =
      some { tv with chapter_ids := insertAt cid (min pos l'.length) l' } := by
    simp only [NovelProject.move_chapter_to_volume, hch]
    exact find?_updateFirst hfind1 (by simpa using htv_id)
  refine ⟨?_, hins, ?_⟩
  · simp only [NovelProject.move_chapter_to_volume, hch]
  · intro hpos
    rw [hins]
    have hle : l'.length ≤ pos := by
      have : l'.length ≤ tv.chapter_ids.length := by
        by_cases hsrc : ch.volume_id = tgt
        · simp only [l', if_pos hsrc]
          exact length_eraseFirstNat_le cid tv.chapter_ids
        · simp [l', if_neg hsrc]
      omega
    rw [Nat.min_eq_right hle, insertAt_of_ge cid (le_refl _)]

def exC8p : NovelProject :=
  { title := "小说"
    volumes := [{ id := 0, title := "第一卷", order := 0,
                  chapter_ids := [0, 1], description := "" },
                { id := 1, title := "第二卷", order := 1,
                  chapter_ids := [], description := "" }]
    chapters := [(0, exC5ch), (1, { exC5ch with id := 1, order := 1 })]
    histories := fun _ => [] }

theorem C8_witness :
    lookupc exC8p.chapters 0 = some exC5ch ∧
    exC8p.volumes.find? (fun v => v.id == 1) =
      some { id := 1, title := "第二卷", order := 1, chapter_ids := [],
             description := "" } ∧
    ((exC8p.move_chapter_to_volume 0 1 5).1 = Except.ok () ∧
      (exC8p.move_chapter_to_volume 0 1 5).2.volumes.find?
          (fun v => v.id == 1) =
        some { id := 1, title := "第二卷", order := 1,
               chapter_ids := insertAt 0 (min 5 0) [], description := "" } ∧
      (0 ≤ 5 →
        (exC8p.move_chapter_to_volume 0 1 5).2.volumes.find?
            (fun v => v.id == 1) =
          some { id := 1, title := "第二卷", order := 1,
                 chapter_ids := [] ++ [0], description := "" })) :=
  ⟨by decide, by decide,
    C8_move_clamps exC8p 0 1 5 exC5ch
      { id := 1, title := "第二卷", order := 1, chapter_ids := [],
        description := "" }
      (by decide) (by decide) (by decide)⟩

theorem removeFromSource_not_mem {src cid : Nat} {l : List Volume}
    (hnd : (l.map Volume.id).Nodup)
    (hnodup : ∀ v ∈ l, v.chapter_ids.Nodup)
    (honly : ∀ v ∈ l, v.id ≠ src → cid ∉ v.chapter_ids) :
    ∀ v ∈ removeFromSource src cid l, cid ∉ v.chapter_ids := by
  induction l with
  | nil => simp [removeFromSource]
  | cons v vs ih =>
    simp only [List.map_cons, List.nodup_cons] at hnd
    by_cases hcond : v.id = src ∧ cid ∈ v.chapter_ids
    · simp only [removeFromSource, if_pos hcond]
      intro w hw
      rcases List.mem_cons.mp hw with rfl | hw'
      · exact not_mem_eraseFirstNat_of_nodup (hnodup v (by simp))
      · have hws : w.id ≠ src := by
          intro e
          exact hnd.1 (List.mem_map.mpr ⟨w, hw', e.trans hcond.1.symm⟩)
        exact honly w (by simp [hw']) hws
    · simp only [removeFromSource, if_neg hcond]
      intro w hw
      rcases List.mem_cons.mp hw with rfl | hw'
      · by_cases hws : w.id = src
        · intro hmem
          exact hcond ⟨hws, hmem⟩
        · exact honly w (by simp) hws
      · exact ih hnd.2 (fun u hu => hnodup u (by simp [hu]))
          (fun u hu => honly u (by simp [hu])) w hw'

/-- C10: moving an existing chapter to a volume id that matches no
volume silently succeeds: the id is removed from its source volume's
`chapter_ids`, inserted nowhere, and the chapter's `volume_id` is set to
the nonexistent target — leaving a chapter that is still in the index
but appears in no volume's ordering. -/
theorem C10_move_to_missing_volume (p : NovelProject) (cid tgt pos : Nat)
    (ch : Chapter) (hch : lookupc p.chapters cid = some ch)
    (hno : ∀ v ∈ p.volumes, v.id ≠ tgt)
    (hnd : (p.volumes.map Volume.id).Nodup)
    (hndids : ∀ v ∈ p.volumes, v.chapter_ids.Nodup)
    (honly : ∀ v ∈ p.volumes, v.id ≠ ch.volume_id → cid ∉ v.chapter_ids) :
    (p.move_chapter_to_volume cid tgt pos).1 = Except.ok () ∧
    lookupc (p.move_chapter_to_volume cid tgt pos).2.chapters cid =
      some { ch with volume_id := tgt } ∧
    (∀ v ∈ (p.move_chapter_to_volume cid tgt pos).2.volumes,
      cid ∉ v.chapter_ids) ∧
    (p.move_chapter_to_volume cid tgt pos).2.volumes.find?
        (fun v => v.id == ch.volume_id) =
      (p.volumes.find? (fun v => v.id == ch.volume_id)).map
        (fun v => { v with chapter_ids := eraseFirstNat cid v.chapter_ids }) := by
  have hv1 : ∀ v ∈ removeFromSource ch.volume_id cid p.volumes, v.id ≠ tgt := by
    intro v hv
    rcases removeFromSource_mem hv with hmem | ⟨u, hu, _, _, hvu⟩
    · exact hno v hmem
    · rw [hvu]
      exact hno u hu
  have hmove : (p.move_chapter_to_volume cid tgt pos).2 =
      { p with
        volumes := removeFromSource ch.volume_id cid p.volumes
        chapters := modifyc p.chapters cid
          (fun c => { c with volume_id := tgt }) } := by
    simp only [NovelProject.move_chapter_to_volume, hch]
    rw [updateFirst_eq_self (fun v hv => by simpa using hv1 v hv)]
  have hchap : (p.move_chapter_to_volume cid tgt pos).2.chapters =
      modifyc p.chapters cid (fun c => { c with volume_id := tgt }) := by
    rw [hmove]
  have hvols : (p.move_chapter_to_volume cid tgt pos).2.volumes =
      removeFromSource ch.volume_id cid p.volumes := by
    rw [hmove]
  refine ⟨?_, ?_, ?_, ?_⟩
  · simp only [NovelProject.move_chapter_to_volume, hch]
  · rw [hchap, lookupc_modifyc_self, hch]
    rfl
  · rw [hvols]
    exact removeFromSource_not_mem hnd hndids honly
  · rw [hvols]
    rcases hfs : p.volumes.find? (fun v => v.id == ch.volume_id) with _ | sv
    · have hnone : ∀ v ∈ p.volumes, ¬(v.id = ch.volume_id ∧ cid ∈ v.chapter_ids) := by
        intro v hv hc
        have := List.find?_eq_none.mp hfs v hv
        simp [hc.1] at this
      rw [removeFromSource_eq_self hnone, hfs]
      rfl
    · rw [removeFromSource_find?_self hfs hnd, hfs]
      rfl

def exC10p : NovelProject :=
  { title := "小说"
    volumes := [{ id := 0, title := "第一卷", order := 0,
                  chapter_ids := [0, 1], description := "" }]
    chapters := [(0, exC5ch), (1, { exC5ch with id := 1, order := 1 })]
    histories := fun _ => [] }

theorem C10_witness :
    lookupc exC10p.chapters 0 = some exC5ch ∧
    (∀ v ∈ exC10p.volumes, v.id ≠ 9) ∧
    ((exC10p.move_chapter_to_volume 0 9 0).1 = Except.ok () ∧
      lookupc (exC10p.move_chapter_to_volume 0 9 0).2.chapters 0 =
        some { exC5ch with volume_id := 9 } ∧
      (∀ v ∈ (exC10p.move_chapter_to_volume 0 9 0).2.volumes,
        0 ∉ v.chapter_ids) ∧
      (exC10p.move_chapter_to_volume 0 9 0).2.volumes.find?
          (fun v => v.id == exC5ch.volume_id) =
        (exC10p.volumes.find? (fun v => v.id == exC5ch.volume_id)).map
          (fun v => { v with chapter_ids := eraseFirstNat 0 v.chapter_ids })) :=
  ⟨by decide, by decide,
    C10_move_to_missing_volume exC10p 0 9 0 exC5ch (by decide) (by decide)
      (by decide) (by decide) (by decide)⟩

/-- C4: starting from a freshly created chapter (empty content, version
0, no history), after N successful content updates in which every new
content is non-empty and differs from the chapter's content at the time
of the call, the chapter's `current_version` is N, its content is the
last update, and `get_version_history` returns exactly N-1 snapshots —
the pre-update contents `cs[0] .. cs[N-2]` tagged with version numbers
1 through N-1, most recent first.  (`N < 2^32` reflects the `u32`
version counter of the source.) -/
theorem C4_fresh_chapter_versioning (p : NovelProject) (id : Nat)
    (ch : Chapter) (cs : List String)
    (hch : lookupc p.chapters id = some ch) (hcontent : ch.content = "")
    (hcv : ch.current_version = 0) (hhist : p.histories id = [])
    (hne : cs ≠ []) (hnonempty : ∀ c ∈ cs, c ≠ "")
    (hchain : List.Chain' (fun a b => b ≠ a) cs) (hlen : cs.length < u32Size) :
    (∃ ch', lookupc (applyUpdates p id cs).chapters id = some ch' ∧
      ch'.current_version = cs.length ∧
      ch'.content = nthD "" cs (cs.length - 1)) ∧
    (applyUpdates p id cs).get_version_history id =
      Except.ok (snapsDesc cs (cs.length - 1)) ∧
    (snapsDesc cs (cs.length - 1)).length = cs.length - 1 ∧
    (∀ j, 1 ≤ j → j ≤ cs.length - 1 →
      snapFor j (nthD "" cs (j - 1)) ∈ snapsDesc cs (cs.length - 1)) := by
  obtain ⟨hlook', hhist'⟩ :=
    applyUpdates_spec id cs hne hnonempty hchain hlen p ch hch hcontent hcv hhist
  refine ⟨⟨_, hlook', rfl, rfl⟩, ?_, snapsDesc_length cs _,
    fun j h1 h2 => mem_snapsDesc h1 h2⟩
  simp only [NovelProject.get_version_history, hlook']
  rw [hhist', sortByVersionDesc_eq_self (snapsDesc_chain cs _)]

def exC4ch : Chapter :=
  { id := 0, title := "第1章", order := 0, volume_id := 0,
    content := "", word_count := 0, status := ChapterStatus.NotStarted,
    current_version := 0 }

def exC4p : NovelProject :=
  { title := "小说"
    chapters := [(0, exC4ch)]
    volumes := [{ id := 0, title := "第一卷", order := 0,
                  chapter_ids := [0], description := "" }]
    histories := fun _ => [] }

theorem C4_witness :
    lookupc exC4p.chapters 0 = some exC4ch ∧
    (∀ c ∈ ["一稿", "二稿", "三稿"], c ≠ "") ∧
    List.Chain' (fun a b => b ≠ a) ["一稿", "二稿", "三稿"] ∧
    (["一稿", "二稿", "三稿"] : List String).length < u32Size ∧
    ((∃ ch', lookupc (applyUpdates exC4p 0 ["一稿", "二稿", "三稿"]).chapters 0 =
        some ch' ∧ ch'.current_version = 3 ∧
        ch'.content = nthD "" ["一稿", "二稿", "三稿"] 2) ∧
      (applyUpdates exC4p 0 ["一稿", "二稿", "三稿"]).get_version_history 0 =
        Except.ok (snapsDesc ["一稿", "二稿", "三稿"] 2) ∧
      (snapsDesc ["一稿", "二稿", "三稿"] 2).length = 2 ∧
      (∀ j, 1 ≤ j → j ≤ 2 →
        snapFor j (nthD "" ["一稿", "二稿", "三稿"] (j - 1)) ∈
          snapsDesc ["一稿", "二稿", "三稿"] 2)) :=
  ⟨by decide, by decide,
    by simp only [List.chain'_cons, List.chain'_singleton, and_true]; decide,
    by decide,
    C4_fresh_chapter_versioning exC4p 0 exC4ch ["一稿", "二稿", "三稿"]
      (by decide) (by decide) (by decide) (by decide) (by decide) (by decide)
      (by simp only [List.chain'_cons, List.chain'_singleton, and_true]; decide)
      (by decide)⟩

/-! ## I2 preservation lemmas -/

theorem updateFirst_mem {α : Type} {pred : α → Bool} {f : α → α}
    {l : List α} {y : α} (h : y ∈ updateFirst pred f l) :
    y ∈ l ∨ ∃ x ∈ l, y = f x := by
  induction l with
  | nil => simp [updateFirst] at h
  | cons a xs ih =>
    by_cases ha : pred a
    · simp only [updateFirst, if_pos ha] at h
      rcases List.mem_cons.mp h with rfl | h'
      · exact Or.inr ⟨a, by simp, rfl⟩
      · exact Or.inl (by simp [h'])
    · simp only [updateFirst, if_neg ha] at h
      rcases List.mem_cons.mp h with rfl | h'
      · exact Or.inl (by simp)
      · rcases ih h' with h'' | ⟨x, hx, hfx⟩
        · exact Or.inl (by simp [h''])
        · exact Or.inr ⟨x, by simp [hx], hfx⟩

theorem first_split {α : Type} (P : α → Prop) [DecidablePred P] {l : List α}
    (h : ∃ v ∈ l, P v) :
    ∃ l₁ x l₂, l = l₁ ++ x :: l₂ ∧ (∀ y ∈ l₁, ¬ P y) ∧ P x := by
  induction l with
  | nil => simp at h
  | cons a xs ih =>
    by_cases ha : P a
    · exact ⟨[], a, xs, by simp, by simp, ha⟩
    · have h' : ∃ v ∈ xs, P v := by
        obtain ⟨v, hv, hp⟩ := h
        rcases List.mem_cons.mp hv with rfl | hv'
        · exact absurd hp ha
        · exact ⟨v, hv', hp⟩
      obtain ⟨l₁, x, l₂, hl, h₁, hx⟩ := ih h'
      refine ⟨a :: l₁, x, l₂, by simp [hl], ?_, hx⟩
      intro y hy
      rcases List.mem_cons.mp hy with rfl | hy'
      · exact ha
      · exact h₁ y hy'

theorem I2_chapters_modifyc {p : NovelProject} (hI2 : I2 p) (id : Nat)
    {f : Chapter → Chapter} (hf : ∀ c, (f c).order = c.order)
    (h' : Nat → List ChapterVersion) :
    I2 { p with chapters := modifyc p.chapters id f, histories := h' } := by
  intro v hv i hi
  by_cases hc : nthD 0 v.chapter_ids i = id
  · have hbase := hI2 v hv i hi
    show ((lookupc (modifyc p.chapters id f) (nthD 0 v.chapter_ids i)).map
      Chapter.order).getD i = i
    rw [hc] at hbase ⊢
    rw [lookupc_modifyc_self]
    rcases hl : lookupc p.chapters id with _ | c
    · rw [hl] at hbase
      simp
    · rw [hl] at hbase
      simp only [Option.map_some', Option.getD_some] at hbase ⊢
      rw [hf c]
      exact hbase
  · show ((lookupc (modifyc p.chapters id f) (nthD 0 v.chapter_ids i)).map
      Chapter.order).getD i = i
    rw [lookupc_modifyc_ne _ _ hc]
    exact hI2 v hv i hi

theorem I2_update_chapter_content (p : NovelProject) (hI2 : I2 p) (id : Nat)
    (c : String) (s : Option String) :
    I2 (p.update_chapter_content id c s).2 := by
  rcases hl : lookupc p.chapters id with _ | ch
  · simp only [NovelProject.update_chapter_content, hl]
    exact hI2
  · simp only [NovelProject.update_chapter_content, hl]
    refine I2_chapters_modifyc hI2 id ?_ _
    intro c0
    rfl

theorem I2_rename_chapter (p : NovelProject) (hI2 : I2 p) (id : Nat)
    (t : String) : I2 (p.rename_chapter id t).2 := by
  rcases hl : lookupc p.chapters id with _ | ch
  · simp only [NovelProject.rename_chapter, hl]
    exact hI2
  · simp only [NovelProject.rename_chapter, hl]
    refine I2_chapters_modifyc hI2 id ?_ _
    intro c0
    rfl

theorem I2_update_chapter_status (p : NovelProject) (hI2 : I2 p) (id : Nat)
    (st : ChapterStatus) : I2 (p.update_chapter_status id st).2 := by
  rcases hl : lookupc p.chapters id with _ | ch
  · simp only [NovelProject.update_chapter_status, hl]
    exact hI2
  · simp only [NovelProject.update_chapter_status, hl]
    refine I2_chapters_modifyc hI2 id ?_ _
    intro c0
    rfl

theorem I2_restore_version (p : NovelProject) (hI2 : I2 p) (id v : Nat) :
    I2 (p.restore_version id v).2 := by
  rcases hl : lookupc p.chapters id with _ | ch
  · simp only [NovelProject.restore_version, hl]
    exact hI2
  · rcases hf : (p.histories id).find? (fun w => w.version == v) with _ | vd
    · simp only [NovelProject.restore_version, hl, hf]
      exact hI2
    · simp only [NovelProject.restore_version, hl, hf]
      exact I2_update_chapter_content p hI2 id vd.content _

theorem I2_create_volume (p : NovelProject) (hI2 : I2 p) (nid : Nat)
    (t : String) : I2 (p.create_volume nid t).2 := by
  intro v hv i hi
  rcases List.mem_append.mp hv with h | h
  · exact hI2 v h i hi
  · rcases List.mem_cons.mp h with rfl | h'
    · simp at hi
    · simp at h'

theorem I2_rename_volume (p : NovelProject) (hI2 : I2 p) (id : Nat)
    (t : String) : I2 (p.rename_volume id t).2 := by
  intro v hv i hi
  rcases updateFirst_mem hv with h | ⟨x, hx, rfl⟩
  · exact hI2 v h i hi
  · exact hI2 x hx i hi

theorem I2_create_chapter (p : NovelProject) (hI2 : I2 p) (t : String)
    (vid? : Option Nat)
    (hfreshvol : ∀ v ∈ p.volumes, p.chapters.length ∉ v.chapter_ids) :
    I2 (p.create_chapter t vid?).2 := by
  rcases hvid : resolveVolumeId p vid? with _ | vid
  · simp only [NovelProject.create_chapter, hvid]
    exact hI2
  · rcases hfind : p.volumes.find? (fun v => v.id == vid) with _ | volume
    · simp only [NovelProject.create_chapter, hvid, hfind]
      exact hI2
    · simp only [NovelProject.create_chapter, hvid, hfind]
      obtain ⟨l₁, l₂, hl, h₁, hx, hu⟩ := updateFirst_split
        (fun v => { v with chapter_ids := v.chapter_ids ++ [p.chapters.length] })
        hfind
      rw [hu]
      intro v hv i hi
      rcases List.mem_append.mp hv with hmem | hmem
      · have hvp : v ∈ p.volumes := by
          rw [hl]
          exact List.mem_append_left _ hmem
        have hcid : nthD 0 v.chapter_ids i ∈ v.chapter_ids := nthD_mem _ hi
        have hne : nthD 0 v.chapter_ids i ≠ p.chapters.length :=
          fun e => hfreshvol v hvp (e ▸ hcid)
        show ((lookupc (insertc p.chapters p.chapters.length _)
          (nthD 0 v.chapter_ids i)).map Chapter.order).getD i = i
        rw [lookupc_insertc_ne _ _ hne]
        exact hI2 v hvp i hi
      · rcases List.mem_cons.mp hmem with rfl | hmem'
        · have hvol : volume ∈ p.volumes := by
            rw [hl]
            exact List.mem_append_right _ (by simp)
          have hids : ({ volume with chapter_ids :=
              volume.chapter_ids ++ [p.chapters.length] } : Volume).chapter_ids =
              volume.chapter_ids ++ [p.chapters.length] := rfl
          rw [hids] at hi ⊢
          rcases Nat.lt_or_ge i volume.chapter_ids.length with hlt | hge
          · rw [nthD_append_left _ _ hlt]
            have hcid : nthD 0 volume.chapter_ids i ∈ volume.chapter_ids :=
              nthD_mem _ hlt
            have hne : nthD 0 volume.chapter_ids i ≠ p.chapters.length :=
              fun e => hfreshvol volume hvol (e ▸ hcid)
            show ((lookupc (insertc p.chapters p.chapters.length _)
              (nthD 0 volume.chapter_ids i)).map Chapter.order).getD i = i
            rw [lookupc_insertc_ne _ _ hne]
            exact hI2 volume hvol i hlt
          · have hieq : i = volume.chapter_ids.length := by
              simp only [List.length_append, List.length_cons,
                List.length_nil] at hi
              omega
            subst hieq
            rw [nthD_append_length]
            show ((lookupc (insertc p.chapters p.chapters.length _)
              p.chapters.length).map Chapter.order).getD _ = _
            rw [lookupc_insertc_self]
            rfl
        · have hvp : v ∈ p.volumes := by
            rw [hl]
            exact List.mem_append_right _ (by simp [hmem'])
          have hcid : nthD 0 v.chapter_ids i ∈ v.chapter_ids := nthD_mem _ hi
          have hne : nthD 0 v.chapter_ids i ≠ p.chapters.length :=
            fun e => hfreshvol v hvp (e ▸ hcid)
          show ((lookupc (insertc p.chapters p.chapters.length _)
            (nthD 0 v.chapter_ids i)).map Chapter.order).getD i = i
          rw [lookupc_insertc_ne _ _ hne]
          exact hI2 v hvp i hi

theorem I2_delete_chapter (p : NovelProject) (hI2 : I2 p)
    (hvnodup : ∀ v ∈ p.volumes, v.chapter_ids.Nodup)
    (hdisj : p.volumes.Pairwise
      (fun v w => ∀ cid ∈ v.chapter_ids, cid ∉ w.chapter_ids))
    (id : Nat) : I2 (p.delete_chapter id).2 := by
  rcases hl : lookupc p.chapters id with _ | ch
  · simp only [NovelProject.delete_chapter, hl]
    exact hI2
  · simp only [NovelProject.delete_chapter, hl]
    by_cases hex : ∃ v ∈ p.volumes, id ∈ v.chapter_ids
    · obtain ⟨l₁, x, l₂, hl', h₁, hx⟩ :=
        first_split (fun v => id ∈ v.chapter_ids) hex
      rw [removeAndRenumber_split _ hl' h₁ hx]
      have hxmem : x ∈ p.volumes := by
        rw [hl']
        exact List.mem_append_right _ (by simp)
      have hxnodup : x.chapter_ids.Nodup := hvnodup x hxmem
      have hnewnodup : (eraseFirstNat id x.chapter_ids).Nodup :=
        nodup_eraseFirstNat id hxnodup
      have hdisj' := hl' ▸ hdisj
      obtain ⟨hd₁, hd₂, hd₃⟩ := List.pairwise_append.mp hdisj'
      obtain ⟨hdx, _⟩ := List.pairwise_cons.mp hd₂
      have hdisj₁ : ∀ w ∈ l₁, ∀ cid ∈ w.chapter_ids, cid ∉ x.chapter_ids :=
        fun w hw => hd₃ w hw x (by simp)
      have hdisj₂ : ∀ w ∈ l₂, ∀ cid ∈ w.chapter_ids, cid ∉ x.chapter_ids :=
        fun w hw cid hcw hcx => (hdx w hw cid hcx) hcw
      intro v hv i hi
      rcases List.mem_append.mp hv with hmem | hmem
      · have hvp : v ∈ p.volumes := by
          rw [hl']
          exact List.mem_append_left _ hmem
        have hcid : nthD 0 v.chapter_ids i ∈ v.chapter_ids := nthD_mem _ hi
        have hnx : nthD 0 v.chapter_ids i ∉ x.chapter_ids :=
          hdisj₁ v hmem _ hcid
        show ((lookupc (renumberFrom 0 (eraseKey p.chapters id)
          (eraseFirstNat id x.chapter_ids)) (nthD 0 v.chapter_ids i)).map
          Chapter.order).getD i = i
        rw [renumberFrom_lookup_notMem _ _
          (fun hm => hnx (mem_eraseFirstNat hm))]
        rw [lookupc_eraseKey_ne _ (fun e => hnx (by rw [e]; exact hx))]
        exact hI2 v hvp i hi
      · rcases List.mem_cons.mp hmem with rfl | hmem'
        · have hids : ({ x with chapter_ids := eraseFirstNat id x.chapter_ids }
              : Volume).chapter_ids = eraseFirstNat id x.chapter_ids := rfl
          rw [hids] at hi ⊢
          show ((lookupc (renumberFrom 0 (eraseKey p.chapters id)
            (eraseFirstNat id x.chapter_ids))
            (nthD 0 (eraseFirstNat id x.chapter_ids) i)).map
            Chapter.order).getD i = i
          rw [renumberFrom_lookup_nthD hnewnodup _ _ hi]
          rcases lookupc (eraseKey p.chapters id)
              (nthD 0 (eraseFirstNat id x.chapter_ids) i) with _ | c
          · simp
          · simp
        · have hvp : v ∈ p.volumes := by
            rw [hl']
            exact List.mem_append_right _ (by simp [hmem'])
          have hcid : nthD 0 v.chapter_ids i ∈ v.chapter_ids := nthD_mem _ hi
          have hnx : nthD 0 v.chapter_ids i ∉ x.chapter_ids :=
            hdisj₂ v hmem' _ hcid
          show ((lookupc (renumberFrom 0 (eraseKey p.chapters id)
            (eraseFirstNat id x.chapter_ids)) (nthD 0 v.chapter_ids i)).map
            Chapter.order).getD i = i
          rw [renumberFrom_lookup_notMem _ _
            (fun hm => hnx (mem_eraseFirstNat hm))]
          rw [lookupc_eraseKey_ne _ (fun e => hnx (by rw [e]; exact hx))]
          exact hI2 v hvp i hi
    · push_neg at hex
      rw [removeAndRenumber_eq_self hex]
      intro v hv i hi
      by_cases hc : nthD 0 v.chapter_ids i = id
      · show ((lookupc (eraseKey p.chapters id)
          (nthD 0 v.chapter_ids i)).map Chapter.order).getD i = i
        rw [hc, lookupc_eraseKey_self]
        rfl
      · show ((lookupc (eraseKey p.chapters id)
          (nthD 0 v.chapter_ids i)).map Chapter.order).getD i = i
        rw [lookupc_eraseKey_ne _ hc]
        exact hI2 v hv i hi

theorem I2_reorder (p : NovelProject) (hI2 : I2 p)
    (hvolnd : (p.volumes.map Volume.id).Nodup)
    (hvolcons : ∀ v ∈ p.volumes, ∀ cid ∈ v.chapter_ids,
      ((lookupc p.chapters cid).map Chapter.volume_id).getD v.id = v.id)
    (vid : Nat) (ord : List Nat) (hnd : ord.Nodup) :
    I2 (p.reorder_chapters_in_volume vid ord).2 := by
  rcases hfind : p.volumes.find? (fun v => v.id == vid) with _ | x
  · simp only [NovelProject.reorder_chapters_in_volume, hfind]
    exact hI2
  · rcases hval : validateOrder p.chapters vid ord with e | u
    · simp only [NovelProject.reorder_chapters_in_volume, hfind, hval]
      exact hI2
    · cases u
      simp only [NovelProject.reorder_chapters_in_volume, hfind, hval]
      obtain ⟨l₁, l₂, hl, h₁, hx, hu⟩ := updateFirst_split
        (fun v => { v with chapter_ids := ord }) hfind
      rw [hu]
      have hxid : x.id = vid := by simpa using hx
      have hval' := validateOrder_ok hval
      have hne₁ : ∀ w ∈ l₁, w.id ≠ vid := by
        intro w hw
        have := h₁ w hw
        simpa using this
      have hne₂ : ∀ w ∈ l₂, w.id ≠ vid := by
        intro w hw heq
        have hnd' := hl ▸ hvolnd
        rw [List.map_append, List.map_cons] at hnd'
        have := (List.nodup_append.mp hnd').2.1
        rw [List.nodup_cons] at this
        exact this.1 (by
          rw [← hxid] at heq
          exact heq ▸ List.mem_map.mpr ⟨w, hw, rfl⟩)
      have hother : ∀ w, w ∈ p.volumes → w.id ≠ vid →
          ∀ i, i < w.chapter_ids.length → nthD 0 w.chapter_ids i ∉ ord := by
        intro w hw hwid i hi hmem
        obtain ⟨c, hc, hcvol⟩ := hval' _ hmem
        have := hvolcons w hw (nthD 0 w.chapter_ids i) (nthD_mem 0 hi)
        rw [hc] at this
        simp only [Option.map_some', Option.getD_some] at this
        exact hwid (by rw [← this, hcvol])
      intro v hv i hi
      rcases List.mem_append.mp hv with hmem | hmem
      · have hvp : v ∈ p.volumes := by
          rw [hl]
          exact List.mem_append_left _ hmem
        show ((lookupc (renumberFrom 0 p.chapters ord)
          (nthD 0 v.chapter_ids i)).map Chapter.order).getD i = i
        rw [renumberFrom_lookup_notMem _ _
          (hother v hvp (hne₁ v hmem) i hi)]
        exact hI2 v hvp i hi
      · rcases List.mem_cons.mp hmem with rfl | hmem'
        · have hids : ({ x with chapter_ids := ord } : Volume).chapter_ids =
              ord := rfl
          rw [hids] at hi ⊢
          show ((lookupc (renumberFrom 0 p.chapters ord)
            (nthD 0 ord i)).map Chapter.order).getD i = i
          rw [renumberFrom_lookup_nthD hnd _ _ hi]
          rcases lookupc p.chapters (nthD 0 ord i) with _ | c
          · simp
          · simp
        · have hvp : v ∈ p.volumes := by
            rw [hl]
            exact List.mem_append_right _ (by simp [hmem'])
          show ((lookupc (renumberFrom 0 p.chapters ord)
            (nthD 0 v.chapter_ids i)).map Chapter.order).getD i = i
          rw [renumberFrom_lookup_notMem _ _
            (hother v hvp (hne₂ v hmem') i hi)]
          exact hI2 v hvp i hi

theorem renumberVolumes_mem {i : Nat} {l : List Volume} {v : Volume}
    (h : v ∈ renumberVolumes i l) :
    ∃ w ∈ l, v.chapter_ids = w.chapter_ids := by
  induction l generalizing i with
  | nil => simp [renumberVolumes] at h
  | cons a xs ih =>
    rcases List.mem_cons.mp h with rfl | h'
    · exact ⟨a, by simp, rfl⟩
    · obtain ⟨w, hw, hids⟩ := ih h'
      exact ⟨w, by simp [hw], hids⟩

theorem eraseFirstVolume_subset {id : Nat} {l : List Volume} {v : Volume}
    (h : v ∈ eraseFirstVolume id l) : v ∈ l := by
  induction l with
  | nil => simp [eraseFirstVolume] at h
  | cons a xs ih =>
    by_cases ha : a.id = id
    · simp only [eraseFirstVolume, if_pos ha] at h
      simp [h]
    · simp only [eraseFirstVolume, if_neg ha] at h
      rcases List.mem_cons.mp h with rfl | h'
      · simp
      · simp [ih h']

theorem dropChapters_none_mono {cid : Nat} :
    ∀ {ids : List Nat} {ch : List (Nat × Chapter)}
      {h : Nat → List ChapterVersion}, lookupc ch cid = none →
      lookupc (dropChapters ch h ids).1 cid = none := by
  intro ids
  induction ids with
  | nil => intro ch h hl; exact hl
  | cons a rest ih =>
    intro ch h hl
    rcases hla : lookupc ch a with _ | c
    · simp only [dropChapters, hla]
      exact ih hl
    · simp only [dropChapters, hla]
      refine ih ?_
      by_cases hca : cid = a
      · rw [hca]
        exact lookupc_eraseKey_self ch a
      · rw [lookupc_eraseKey_ne _ hca]
        exact hl

theorem dropChapters_lookup_mem {cid : Nat} :
    ∀ {ids : List Nat} {ch : List (Nat × Chapter)}
      {h : Nat → List ChapterVersion}, cid ∈ ids →
      lookupc (dropChapters ch h ids).1 cid = none := by
  intro ids
  induction ids with
  | nil => intro ch h hm; simp at hm
  | cons a rest ih =>
    intro ch h hm
    rcases hla : lookupc ch a with _ | c
    · simp only [dropChapters, hla]
      rcases List.mem_cons.mp hm with rfl | hm'
      · exact dropChapters_none_mono hla
      · exact ih hm'
    · simp only [dropChapters, hla]
      rcases List.mem_cons.mp hm with rfl | hm'
      · exact dropChapters_none_mono (lookupc_eraseKey_self ch cid)
      · exact ih hm'

theorem dropChapters_lookup_notMem {cid : Nat} :
    ∀ {ids : List Nat} {ch : List (Nat × Chapter)}
      {h : Nat → List ChapterVersion}, cid ∉ ids →
      lookupc (dropChapters ch h ids).1 cid = lookupc ch cid := by
  intro ids
  induction ids with
  | nil => intro ch h _; rfl
  | cons a rest ih =>
    intro ch h hm
    simp only [List.mem_cons, not_or] at hm
    rcases hla : lookupc ch a with _ | c
    · simp only [dropChapters, hla]
      exact ih hm.2
    · simp only [dropChapters, hla]
      rw [ih hm.2, lookupc_eraseKey_ne _ hm.1]

theorem I2_delete_volume (p : NovelProject) (hI2 : I2 p) (id : Nat) :
    I2 (p.delete_volume id).2 := by
  rcases hfind : p.volumes.find? (fun v => v.id == id) with _ | volume
  · simp only [NovelProject.delete_volume, hfind]
    exact hI2
  · simp only [NovelProject.delete_volume, hfind]
    intro v hv i hi
    obtain ⟨w, hw, hids⟩ := renumberVolumes_mem hv
    have hwp : w ∈ p.volumes := eraseFirstVolume_subset hw
    rw [hids] at hi ⊢
    by_cases hmem : nthD 0 w.chapter_ids i ∈ volume.chapter_ids
    · show ((lookupc (dropChapters p.chapters p.histories
        volume.chapter_ids).1 (nthD 0 w.chapter_ids i)).map
        Chapter.order).getD i = i
      rw [dropChapters_lookup_mem hmem]
      rfl
    · show ((lookupc (dropChapters p.chapters p.histories
        volume.chapter_ids).1 (nthD 0 w.chapter_ids i)).map
        Chapter.order).getD i = i
      rw [dropChapters_lookup_notMem hmem]
      exact hI2 w hwp i hi

def exC2p : NovelProject :=
  { title := "小说"
    volumes := [{ id := 0, title := "第一卷", order := 0,
                  chapter_ids := [0, 1], description := "" },
                { id := 1, title := "第二卷", order := 1,
                  chapter_ids := [], description := "" }]
    chapters := [(0, exC5ch), (1, { exC5ch with id := 1, order := 1 })]
    histories := fun _ => [] }

/-- C2 (counterexample): from a state satisfying I2,
`move_chapter_to_volume` succeeds yet leaves I2 violated — it removes
the id from the source volume's `chapter_ids` without renumbering the
remaining chapters' cached `order` fields (chapter 1 ends up at index 0
of volume 0 with `order = 1`). -/
theorem C2_counterexample :
    I2 exC2p ∧ (exC2p.move_chapter_to_volume 0 1 0).1 = Except.ok () ∧
    ¬ I2 (exC2p.move_chapter_to_volume 0 1 0).2 := by
  refine ⟨by decide, rfl, by decide⟩

/-- C2 (amended): from a structurally well-formed state (`WF`: unique
map keys and volume ids, duplicate-free orderings, I1, volume-id
consistency) satisfying I2, every mutation *except*
`move_chapter_to_volume` preserves I2 — with a duplicate-free ordering
for reorder and a genuinely fresh allocated id for create (`SafeOp`).
`move_chapter_to_volume` does not renumber `order` caches and can
violate I2 (see the counterexample). -/
theorem C2_I2_preserved (p : NovelProject) (op : MutOp) (hWF : WF p)
    (hI2 : I2 p) (hSafe : SafeOp p op) : I2 (applyOp p op) := by
  obtain ⟨hkeys, hvolnd, hvnodup, hdisj, hvolcons⟩ := hWF
  cases op with
  | createChapterOp t v => exact I2_create_chapter p hI2 t v hSafe.2
  | deleteChapterOp id => exact I2_delete_chapter p hI2 hvnodup hdisj id
  | renameChapterOp id t => exact I2_rename_chapter p hI2 id t
  | updateStatusOp id st => exact I2_update_chapter_status p hI2 id st
  | updateContentOp id c s => exact I2_update_chapter_content p hI2 id c s
  | restoreOp id v => exact I2_restore_version p hI2 id v
  | reorderOp vid ord => exact I2_reorder p hI2 hvolnd hvolcons vid ord hSafe
  | moveOp a b c => exact hSafe.elim
  | createVolumeOp nid t => exact I2_create_volume p hI2 nid t
  | deleteVolumeOp id => exact I2_delete_volume p hI2 id
  | renameVolumeOp id t => exact I2_rename_volume p hI2 id t

theorem C2_witness :
    WF exC2p ∧ I2 exC2p ∧ SafeOp exC2p (MutOp.reorderOp 0 [1, 0]) ∧
    I2 (applyOp exC2p (MutOp.reorderOp 0 [1, 0])) :=
  ⟨by decide, by decide, by decide,
    C2_I2_preserved exC2p (MutOp.reorderOp 0 [1, 0]) (by decide) (by decide)
      (by decide)⟩
